import Mathlib

/-!
Shallow embedding of the fpylll BKZ driver (`src/fpylll/contrib/bkz.py`)

The Python module implements the BKZ control loop (`BKZReduction`): a top
level tour loop (`__call__`), one sweep per tour (`tour`), and per-index
block reduction composed of `svp_preprocessing`, `svp_call` and
`svp_postprocessing`.  External collaborators (GSO provider, LLL reducer,
enumeration oracle, auto-abort monitor, clock) are modelled as an abstract
environment of functions (`Env`); the basis itself is a `List M` of rows
over an arbitrary `AddCommGroup M`, and the row mutations the driver
performs through the GSO interface (`move_row`, `create_row`,
`row_addmul`, `remove_last_row`) are given their concrete list semantics.

The two unbounded `while True:` loops (in `__call__` and in
`svp_preprocessing`) are bounded with an explicit fuel parameter; running
out of fuel yields the artificial outcome `Outcome.spin`, distinct from a
normal return (`Outcome.ok`) and a raised Python exception
(`Outcome.raised`).
-/

namespace Fpylll

/-- Python exceptions the driver can raise: `EnumerationError` (re-raised in
`svp_call` when Gaussian-heuristic bounding is off, carrying the original
message), and the `TypeError` caused by `kappa + None` when the single
nonzero solution coordinate has magnitude ≠ 1 in `svp_postprocessing`. -/
inductive PyErr where
  | enumerationError (msg : ℕ)
  | typeError
  deriving DecidableEq

/-- Result of running a driver fragment: a normal return, a raised
exception, or fuel exhaustion of a bounded `while` loop (an artifact of the
embedding, never a Python behaviour). -/
inductive Outcome (α : Type) where
  | ok (a : α)
  | raised (e : PyErr)
  | spin
  deriving DecidableEq

/-- The bit-flags of `params.flags` that the driver tests.  In the source a
flag is enabled iff `params.flags & BKZ.<FLAG>` is nonzero; here each flag
is a `Bool` field. -/
structure BKZFlags where
  verbose : Bool
  auto_abort : Bool
  max_loops : Bool
  max_time : Bool
  gh_bnd : Bool
  deriving DecidableEq

/-- BKZ parameters.  `preprocessing` is `None` or a nested parameter object
(`Option BKZParams`, which forces an inductive rather than a structure);
`pruning` is an opaque token handed to the enumeration oracle. -/
inductive BKZParams (D : Type) where
  | mk (block_size : ℕ) (flags : BKZFlags) (preprocessing : Option (BKZParams D))
      (pruning : ℕ) (gh_factor : D) (max_loops : ℕ) (max_time : D)

def BKZParams.block_size {D : Type} : BKZParams D → ℕ
  | .mk b _ _ _ _ _ _ => b

def BKZParams.flags {D : Type} : BKZParams D → BKZFlags
  | .mk _ f _ _ _ _ _ => f

def BKZParams.preprocessing {D : Type} : BKZParams D → Option (BKZParams D)
  | .mk _ _ p _ _ _ _ => p

def BKZParams.pruning {D : Type} : BKZParams D → ℕ
  | .mk _ _ _ p _ _ _ => p

def BKZParams.gh_factor {D : Type} : BKZParams D → D
  | .mk _ _ _ _ g _ _ => g

def BKZParams.max_loops {D : Type} : BKZParams D → ℕ
  | .mk _ _ _ _ _ m _ => m

def BKZParams.max_time {D : Type} : BKZParams D → D
  | .mk _ _ _ _ _ _ t => t

/-- Driver state: the basis rows `B` (the `IntegerMatrix` / GSO view),
the LLL object's last swap count `nswaps`, a counter `tick` indexing
successive `time.clock()` reads, and the statistics collector's
`log_clean_kappa` records. -/
structure DriverState (M : Type) where
  B : List M
  nswaps : ℕ
  tick : ℕ
  log : List (ℕ × Bool)
  deriving DecidableEq

/-- The external collaborators, abstracted as pure functions of the basis.
* `lll l k h B`    : `self.lll_obj(l, k, h)` — returns the reduced rows and
  the swap count exposed as `lll_obj.nswaps`;
* `size_reduction` : `self.lll_obj.size_reduction(l, h)`;
* `delta`          : `self.lll_obj.delta`;
* `r_exp B k`      : `self.M.get_r_exp(k, k)` — squared norm and exponent;
* `gh_dist`        : `self.M.compute_gaussian_heuristic_distance`;
* `enumerate`      : `Enum.enumerate(self.M, dist, expo, k, k+bs, pruning)`,
  returning the solution coordinates and the achieved distance, or the
  `EnumerationError` message;
* `clock n`        : the `n`-th reading of `time.clock()`;
* `test_abort stop start i B` : the auto-abort monitor constructed as
  `BKZ.AutoAbort(M, stop, start)`, queried for the `i`-th time. -/
structure Env (M D : Type) where
  lll : ℕ → ℕ → ℕ → List M → List M × ℕ
  size_reduction : ℕ → ℕ → List M → List M
  delta : D
  r_exp : List M → ℕ → D × ℤ
  gh_dist : List M → ℕ → ℕ → D → ℤ → D → D × ℤ
  enumerate : List M → D → ℤ → ℕ → ℕ → ℕ → Except ℕ (List ℤ × D)
  clock : ℕ → D
  test_abort : ℕ → ℕ → ℕ → List M → Bool

variable {M D : Type} [AddCommGroup M] [LinearOrder D] [Mul D] [Sub D]

/-- `self.M.move_row(i, j)`: extract row `i` and re-insert it at position
`j`, shifting the intermediate rows.  Out-of-range `i` is the identity (the
real GSO layer would fault; the driver only calls it in range). -/
def moveRow (B : List M) (i j : ℕ) : List M :=
  match B[i]? with
  | some v => (B.eraseIdx i).insertIdx j v
  | none => B

/-- `self.M.row_addmul(d, s, c)`: `row d += c · row s`. -/
def rowAddmul (B : List M) (d s : ℕ) (c : ℤ) : List M :=
  B.set d (B.getD d 0 + c • B.getD s 0)

/-- The integer lattice spanned by the basis rows. -/
def latt (B : List M) : Submodule ℤ M := Submodule.span ℤ {x | x ∈ B}

/-- `svp_call(kappa, params, block_size)` (source lines 137–170): read the
squared norm of the leading orthogonalized row, scale by δ to get the
acceptance threshold, optionally replace the search bound by the Gaussian
heuristic, call the enumeration oracle; absorb `EnumerationError` as "no
solution" iff `BKZ.GH_BND` is set, and reject a found vector whose distance
does not beat the threshold. -/
def svp_call (env : Env M D) (kappa : ℕ) (params : BKZParams D) (block_size : ℕ)
    (st : DriverState M) : Outcome (Option (List ℤ) × DriverState M) :=
  let p0 := env.r_exp st.B kappa
  let delta_max_dist := env.delta * p0.1
  let p1 := if params.flags.gh_bnd then
      env.gh_dist st.B kappa block_size p0.1 p0.2 params.gh_factor
    else p0
  match env.enumerate st.B p1.1 p1.2 kappa (kappa + block_size) params.pruning with
  | .error msg =>
    if params.flags.gh_bnd then .ok (none, st) else .raised (.enumerationError msg)
  | .ok sol =>
    if delta_max_dist ≤ sol.2 then .ok (none, st) else .ok (some sol.1, st)

/-- `svp_postprocessing(solution, kappa, params, block_size)` (source lines
172–211).  `None` means no change; a solution with exactly one nonzero
coordinate is inserted by a row move (the offset search only accepts
coordinates of absolute value 1 and leaves `first_nonzero_vector = None`
otherwise, so the subsequent `kappa + None` raises `TypeError`); any other
solution goes through the scratch-row create/accumulate/move/LLL/move/remove
sequence.  The `row_ops` batch is a GSO-cache transaction with no row-level
semantics of its own. -/
def svp_postprocessing (env : Env M D) (solution : Option (List ℤ)) (kappa : ℕ)
    (block_size : ℕ) (st : DriverState M) : Outcome (Bool × DriverState M) :=
  match solution with
  | none => .ok (true, st)
  | some s =>
    if (s.filter (fun x => x != 0)).length = 1 then
      match (List.range block_size).find? (fun i => (s.getD i 0).natAbs == 1) with
      | some i =>
        .ok (false,
          { st with B := env.size_reduction kappa (kappa + 1) (moveRow st.B (kappa + i) kappa) })
      | none => .raised .typeError
    else
      let d := st.B.length
      let B1 := (List.range block_size).foldl
        (fun Bb i => rowAddmul Bb d (kappa + i) (s.getD i 0)) (st.B ++ [0])
      let B2 := moveRow B1 d kappa
      let p := env.lll kappa kappa (kappa + block_size + 1) B2
      let B3 := (moveRow p.1 (kappa + block_size) d).dropLast
      .ok (false, { st with B := B3, nswaps := p.2 })

/-- Call descriptors for the mutually recursive driver fragments, so that
the whole recursion is a single structural recursion on fuel (and hence
evaluates by `decide`/`rfl`). -/
inductive CallK (M D : Type) where
  | tour (params : BKZParams D) (min_row max_row : ℕ) (stats : Bool) (st : DriverState M)
  | tourFold (params : BKZParams D) (max_row : ℕ) (stats : Bool) (ks : List ℕ)
      (clean : Bool) (st : DriverState M)
  | svp_reduction (kappa : ℕ) (params : BKZParams D) (block_size : ℕ) (stats : Bool)
      (st : DriverState M)
  | svp_preprocessing (kappa : ℕ) (params : BKZParams D) (block_size : ℕ) (st : DriverState M)
  | preprocLoop (preproc : BKZParams D) (kappa block_size i : ℕ) (t0 : D) (clean : Bool)
      (st : DriverState M)

/-- One interpreter for the mutually recursive driver bodies:
* `.tour` (source lines 77–92) expands the Python
  `for kappa in range(min_row, max_row-1)` into `.tourFold` over the index
  list; each step uses `block_size = min(params.block_size, max_row-kappa)`,
  accumulates `clean &= svp_reduction(...)` and, when a stats collector is
  present, logs `(kappa, clean)` through `log_clean_kappa`;
* `.svp_reduction` (213–239) chains preprocessing, oracle call and
  postprocessing, AND-ing the clean flags;
* `.svp_preprocessing` (94–135) runs `lll_obj(0, kappa, kappa+block_size)`,
  records dirtiness from `nswaps`, and if nested parameters are present
  starts the inner tour loop `.preprocLoop` (its own auto-abort monitor and
  `cputime_start = time.clock()` read);
* `.preprocLoop` (121–133) mirrors the inner `while True:` with its
  sequence of `break` tests.
Fuel is decremented on every call; `0` yields `.spin`. -/
def exec (env : Env M D) : ℕ → CallK M D → Outcome (Bool × DriverState M)
  | 0, _ => .spin
  | fuel + 1, .tour params min_row max_row stats st =>
    exec env fuel (.tourFold params max_row stats
      (List.range' min_row (max_row - 1 - min_row)) true st)
  | fuel + 1, .tourFold params max_row stats ks clean st =>
    match ks with
    | [] => .ok (clean, st)
    | kappa :: ks =>
      let block_size := min params.block_size (max_row - kappa)
      match exec env fuel (.svp_reduction kappa params block_size stats st) with
      | .raised e => .raised e
      | .spin => .spin
      | .ok (c, st1) =>
        let clean1 := clean && c
        let st2 := if stats then { st1 with log := st1.log ++ [(kappa, clean1)] } else st1
        exec env fuel (.tourFold params max_row stats ks clean1 st2)
  | fuel + 1, .svp_reduction kappa params block_size stats st =>
    match exec env fuel (.svp_preprocessing kappa params block_size st) with
    | .raised e => .raised e
    | .spin => .spin
    | .ok (clean_pre, st1) =>
      match svp_call env kappa params block_size st1 with
      | .raised e => .raised e
      | .spin => .spin
      | .ok (solution, st2) =>
        match svp_postprocessing env solution kappa block_size st2 with
        | .raised e => .raised e
        | .spin => .spin
        | .ok (clean_post, st3) => .ok (clean_pre && clean_post, st3)
  | fuel + 1, .svp_preprocessing kappa params block_size st =>
    let p := env.lll 0 kappa (kappa + block_size) st.B
    let st1 : DriverState M := { st with B := p.1, nswaps := p.2 }
    let clean := p.2 == 0
    match params.preprocessing with
    | none => .ok (clean, st1)
    | some preproc =>
      let t0 := env.clock st1.tick
      exec env fuel (.preprocLoop preproc kappa block_size 0 t0 clean
        { st1 with tick := st1.tick + 1 })
  | fuel + 1, .preprocLoop preproc kappa block_size i t0 clean st =>
    match exec env fuel (.tour preproc kappa (kappa + block_size) false st) with
    | .raised e => .raised e
    | .spin => .spin
    | .ok (clean_inner, st1) =>
      if clean_inner then .ok (clean, st1)
      else
        if env.test_abort (kappa + block_size) kappa i st1.B then .ok (clean_inner, st1)
        else if preproc.flags.max_loops && decide (preproc.max_loops ≤ i) then
          .ok (clean_inner, st1)
        else if preproc.flags.max_time then
          let t := env.clock st1.tick
          let st2 : DriverState M := { st1 with tick := st1.tick + 1 }
          if preproc.max_time ≤ t - t0 then .ok (clean_inner, st2)
          else exec env fuel (.preprocLoop preproc kappa block_size (i + 1) t0 clean_inner st2)
        else exec env fuel (.preprocLoop preproc kappa block_size (i + 1) t0 clean_inner st1)

/-- `tour(params, min_row, max_row, stats)`. -/
def tour (env : Env M D) (fuel : ℕ) (params : BKZParams D) (min_row max_row : ℕ)
    (stats : Bool) (st : DriverState M) : Outcome (Bool × DriverState M) :=
  exec env fuel (.tour params min_row max_row stats st)

/-- `svp_reduction(kappa, params, block_size, stats)`. -/
def svp_reduction (env : Env M D) (fuel : ℕ) (kappa : ℕ) (params : BKZParams D)
    (block_size : ℕ) (stats : Bool) (st : DriverState M) : Outcome (Bool × DriverState M) :=
  exec env fuel (.svp_reduction kappa params block_size stats st)

/-- `svp_preprocessing(kappa, params, block_size, stats)`. -/
def svp_preprocessing (env : Env M D) (fuel : ℕ) (kappa : ℕ) (params : BKZParams D)
    (block_size : ℕ) (st : DriverState M) : Outcome (Bool × DriverState M) :=
  exec env fuel (.svp_preprocessing kappa params block_size st)

/-- The `while True:` loop of `__call__` (source lines 60–72): run a tour
over the whole basis, then test the five `break` conditions in order
(tour clean or global block size; auto-abort; loop budget; time budget),
incrementing `i` each pass.  `aaStop` is the row count the auto-abort
monitor was constructed with. -/
def callLoop (env : Env M D) (params : BKZParams D) (aaStop : ℕ) :
    ℕ → ℕ → D → DriverState M → Outcome (DriverState M)
  | 0, _, _, _ => .spin
  | fuel + 1, i, t0, st =>
    match exec env fuel (.tour params 0 st.B.length true st) with
    | .raised e => .raised e
    | .spin => .spin
    | .ok (clean, st1) =>
      if clean || decide (st1.B.length ≤ params.block_size) then .ok st1
      else if params.flags.auto_abort && env.test_abort aaStop 0 i st1.B then .ok st1
      else if params.flags.max_loops && decide (params.max_loops ≤ i) then .ok st1
      else if params.flags.max_time then
        let t := env.clock st1.tick
        let st2 : DriverState M := { st1 with tick := st1.tick + 1 }
        if params.max_time ≤ t - t0 then .ok st2
        else callLoop env params aaStop fuel (i + 1) t0 st2
      else callLoop env params aaStop fuel (i + 1) t0 st1

/-- `__call__(params)` (source lines 45–75): construct the stats collector
and (when enabled) the auto-abort monitor over the current row count, read
`cputime_start`, then run the tour loop from `i = 0`. -/
def call (env : Env M D) (params : BKZParams D) (fuel : ℕ) (st : DriverState M) :
    Outcome (DriverState M) :=
  let aaStop := st.B.length
  let t0 := env.clock st.tick
  callLoop env params aaStop fuel 0 t0 { st with tick := st.tick + 1 }

/-- The flat disjunction of the five termination conditions of `__call__`,
evaluated on the state reached after a completed tour: tour clean,
block size ≥ row count, auto-abort enabled and firing, loop budget enabled
and reached, time budget enabled and exhausted. -/
def callExit (env : Env M D) (params : BKZParams D) (aaStop i : ℕ) (t0 : D)
    (clean : Bool) (st1 : DriverState M) : Bool :=
  clean || decide (st1.B.length ≤ params.block_size)
    || (params.flags.auto_abort && env.test_abort aaStop 0 i st1.B)
    || (params.flags.max_loops && decide (params.max_loops ≤ i))
    || (params.flags.max_time && decide (params.max_time ≤ env.clock st1.tick - t0))

/-- The flat disjunction of the inner preprocessing loop's exit conditions,
evaluated on the state reached after a completed inner tour: inner tour
clean, auto-abort firing (tested unconditionally in the source), loop
budget, time budget. -/
def preprocExit (env : Env M D) (preproc : BKZParams D) (kappa block_size i : ℕ)
    (t0 : D) (clean_inner : Bool) (st1 : DriverState M) : Bool :=
  clean_inner || env.test_abort (kappa + block_size) kappa i st1.B
    || (preproc.flags.max_loops && decide (preproc.max_loops ≤ i))
    || (preproc.flags.max_time && decide (preproc.max_time ≤ env.clock st1.tick - t0))

/-- One record per index visited by a tour sweep: the index `kappa`, the
(possibly truncated) block size used there, the clean flag `cflag` returned
by `svp_reduction` at that index, and the accumulated flag `cafter`
(`clean` after the `clean &= ...` update) that the source hands to
`log_clean_kappa`. -/
structure TEntry where
  kappa : ℕ
  bs : ℕ
  cflag : Bool
  cafter : Bool
  deriving DecidableEq

/-- Instrumented re-run of the tour sweep (`exec .tourFold`), additionally
returning the per-index `TEntry` records.  Mirrors the sweep body
step-for-step; `tourTrace_exec` proves it equivalent to the uninstrumented
sweep. -/
def tourTrace (env : Env M D) (params : BKZParams D) (max_row : ℕ) (stats : Bool) :
    ℕ → List ℕ → Bool → DriverState M → Outcome (List TEntry × (Bool × DriverState M))
  | 0, _, _, _ => .spin
  | _ + 1, [], clean, st => .ok ([], (clean, st))
  | fuel + 1, kappa :: ks, clean, st =>
    let block_size := min params.block_size (max_row - kappa)
    match exec env fuel (.svp_reduction kappa params block_size stats st) with
    | .raised e => .raised e
    | .spin => .spin
    | .ok (c, st1) =>
      let clean1 := clean && c
      let st2 := if stats then { st1 with log := st1.log ++ [(kappa, clean1)] } else st1
      match tourTrace env params max_row stats fuel ks clean1 st2 with
      | .raised e => .raised e
      | .spin => .spin
      | .ok (tr, r) => .ok (⟨kappa, block_size, c, clean1⟩ :: tr, r)

/-- The running AND of a list of flags below a starting flag: entry `k` is
`clean && c_0 && ... && c_k`. -/
def accumFlags (clean : Bool) : List Bool → List Bool
  | [] => []
  | c :: cs => (clean && c) :: accumFlags (clean && c) cs

/-- Instrumented re-run of the inner preprocessing loop
(`exec .preprocLoop`), additionally returning the clean flags of the inner
tours that were executed.  `preprocTrace_exec` proves it equivalent. -/
def preprocTrace (env : Env M D) (preproc : BKZParams D) (kappa block_size : ℕ) :
    ℕ → ℕ → D → Bool → DriverState M → Outcome (List Bool × (Bool × DriverState M))
  | 0, _, _, _, _ => .spin
  | fuel + 1, i, t0, clean, st =>
    match exec env fuel (.tour preproc kappa (kappa + block_size) false st) with
    | .raised e => .raised e
    | .spin => .spin
    | .ok (clean_inner, st1) =>
      if clean_inner then .ok ([clean_inner], (clean, st1))
      else
        if env.test_abort (kappa + block_size) kappa i st1.B then
          .ok ([clean_inner], (clean_inner, st1))
        else if preproc.flags.max_loops && decide (preproc.max_loops ≤ i) then
          .ok ([clean_inner], (clean_inner, st1))
        else if preproc.flags.max_time then
          let t := env.clock st1.tick
          let st2 : DriverState M := { st1 with tick := st1.tick + 1 }
          if preproc.max_time ≤ t - t0 then .ok ([clean_inner], (clean_inner, st2))
          else
            match preprocTrace env preproc kappa block_size fuel (i + 1) t0 clean_inner st2 with
            | .raised e => .raised e
            | .spin => .spin
            | .ok (fs, r) => .ok (clean_inner :: fs, r)
        else
          match preprocTrace env preproc kappa block_size fuel (i + 1) t0 clean_inner st1 with
          | .raised e => .raised e
          | .spin => .spin
          | .ok (fs, r) => .ok (clean_inner :: fs, r)

def envErrW : Env ℤ ℤ where
  lll := fun _ _ _ B => (B, 0)
  size_reduction := fun _ _ B => B
  delta := 1
  r_exp := fun _ _ => (1, 0)
  gh_dist := fun _ _ _ q e _ => (q, e)
  enumerate := fun _ _ _ _ _ _ => .error 7
  clock := fun _ => 0
  test_abort := fun _ _ _ _ => false

def flagsOff : BKZFlags := ⟨false, false, false, false, false⟩

def flagsGh : BKZFlags := ⟨false, false, false, false, true⟩

def paramsNoGhW : BKZParams ℤ := .mk 2 flagsOff none 0 0 0 0

def paramsGhW : BKZParams ℤ := .mk 2 flagsGh none 0 0 0 0

def stW : DriverState ℤ := ⟨[1, 1, 1], 0, 0, []⟩

def envOkW : Env ℤ ℤ where
  lll := fun _ _ _ B => (B, 0)
  size_reduction := fun _ _ B => B
  delta := 2
  r_exp := fun _ _ => (3, 0)
  gh_dist := fun _ _ _ q e _ => (q, e)
  enumerate := fun _ _ _ _ _ _ => .ok ([1, 0], 5)
  clock := fun _ => 0
  test_abort := fun _ _ _ _ => false

def envC3W : Env ℤ ℤ where
  lll := fun _ k _ B => (B, if k == 0 then 1 else 0)
  size_reduction := fun _ _ B => B
  delta := 1
  r_exp := fun _ _ => (1, 0)
  gh_dist := fun _ _ _ q e _ => (q, e)
  enumerate := fun _ _ _ _ _ _ => .ok ([], 5)
  clock := fun _ => 0
  test_abort := fun _ _ _ _ => false

def flagsMl : BKZFlags := ⟨false, false, true, false, false⟩

def paramsMlW : BKZParams ℤ := .mk 2 flagsMl none 0 0 0 0

def stC3W : DriverState ℤ := ⟨[1, 1, 1], 0, 0, [(0, false), (1, false)]⟩

/-- Contract of the external collaborators that mutate rows, matching the
spec (§2, §4.5): any `lll_obj(...)` range call and any
`size_reduction(...)` call preserve the spanned lattice and the row count
(they apply unimodular operations within a range), and the extended-range
LLL call of `svp_postprocessing`, run on a block whose leading row is an
integer combination of the other block rows, eliminates the dependency and
leaves the zero row at the end of the range. -/
structure EnvOK (env : Env M D) : Prop where
  lll_latt : ∀ l k h B, latt ((env.lll l k h B).1) = latt B
  lll_len : ∀ l k h B, ((env.lll l k h B).1).length = B.length
  sr_latt : ∀ l h B, latt (env.size_reduction l h B) = latt B
  sr_len : ∀ l h B, (env.size_reduction l h B).length = B.length
  lll_zero : ∀ kappa bs B,
    B.getD kappa 0 ∈ Submodule.span ℤ {x | x ∈ (B.drop (kappa + 1)).take bs} →
    ((env.lll kappa kappa (kappa + bs + 1)) B).1.getD (kappa + bs) 0 = 0

/-- The input state of a call descriptor. -/
def CallK.stIn : CallK M D → DriverState M
  | .tour _ _ _ _ st => st
  | .tourFold _ _ _ _ _ st => st
  | .svp_reduction _ _ _ _ st => st
  | .svp_preprocessing _ _ _ st => st
  | .preprocLoop _ _ _ _ _ _ st => st

/-- In-range precondition of a call descriptor: the block or sweep range
lies inside the current basis (the driver maintains this everywhere, since
`tour` truncates `block_size` to `max_row - kappa`). -/
def CallK.pre : CallK M D → Prop
  | .tour _ _ max_row _ st => max_row ≤ st.B.length
  | .tourFold _ max_row _ ks _ st => max_row ≤ st.B.length ∧ ∀ kk ∈ ks, kk ≤ max_row
  | .svp_reduction kappa _ block_size _ st => kappa + block_size ≤ st.B.length
  | .svp_preprocessing kappa _ block_size st => kappa + block_size ≤ st.B.length
  | .preprocLoop _ kappa block_size _ _ _ st => kappa + block_size ≤ st.B.length

def envPU : Env PUnit ℤ where
  lll := fun _ _ _ B => (B, 0)
  size_reduction := fun _ _ B => B
  delta := 1
  r_exp := fun _ _ => (1, 0)
  gh_dist := fun _ _ _ q e _ => (q, e)
  enumerate := fun _ _ _ _ _ _ => .ok ([], 5)
  clock := fun _ => 0
  test_abort := fun _ _ _ _ => false

def paramsPU : BKZParams ℤ := .mk 2 flagsOff none 0 0 0 0

def stPU : DriverState PUnit := ⟨[PUnit.unit, PUnit.unit], 0, 0, []⟩

def stPU2 : DriverState PUnit := ⟨[PUnit.unit, PUnit.unit], 0, 1, [(0, true)]⟩

def envIdW : Env ℤ ℤ where
  lll := fun _ _ _ B => (B, 0)
  size_reduction := fun _ _ B => B
  delta := 1
  r_exp := fun _ _ => (1, 0)
  gh_dist := fun _ _ _ q e _ => (q, e)
  enumerate := fun _ _ _ _ _ _ => .ok ([], 5)
  clock := fun _ => 0
  test_abort := fun _ _ _ _ => false

def stC7W : DriverState ℤ := ⟨[10, 20, 30], 0, 0, []⟩

def stC8W : DriverState ℤ := ⟨[10, 20], 0, 0, []⟩

/-- Driver fragments whose `stats` argument is off (and the fragments that
never log) do not touch the statistics log. -/
def CallK.statsOff : CallK M D → Prop
  | .tour _ _ _ stats _ => stats = false
  | .tourFold _ _ stats _ _ _ => stats = false
  | _ => True

/-! ## Claim C5 — corrected.

The claim says `log_clean_kappa(kappa, clean)` reports the per-index flag
returned by `svp_reduction` at that `kappa`.  In the source, `clean` has
already been AND-ed with all earlier per-index flags
(`clean &= self.svp_reduction(...)` precedes the logging call), so the
logged value is the running accumulation, not the per-index flag. -/

/-- Claim C5 as stated (specialized to integer bases): in any traced sweep
with a stats collector, the log grows by the pairs
`(kappa, per-index clean flag of svp_reduction at kappa)`. -/
def LoggedFlagIsPerIndexFlag : Prop :=
  ∀ (env : Env ℤ ℤ) (params : BKZParams ℤ) (fuel max_row : ℕ) (ks : List ℕ)
    (st : DriverState ℤ) (tr : List TEntry) (b : Bool) (st' : DriverState ℤ),
    tourTrace env params max_row true fuel ks true st = .ok (tr, (b, st')) →
    st'.log = st.log ++ tr.map (fun e => (e.kappa, e.cflag))

def paramsNestW : BKZParams ℤ := .mk 2 flagsOff (some paramsNoGhW) 0 0 0 0

def stC9Fin : DriverState ℤ := ⟨[10, 20, 30], 0, 1, []⟩

/-! ## Claim C2: enumeration-failure policy in `svp_call` -/

/-- **C2.** When the enumeration oracle raises its no-solution error (an
oracle stub that always reports failure), the outcome depends only on the
Gaussian-heuristic flag: with `GH_BND` set, `svp_call` absorbs the error
and returns the no-solution sentinel with the state untouched; without it,
`svp_call` re-raises `EnumerationError` with the original message, and the
surrounding `svp_reduction` propagates that exception instead of treating
it as "no improvement". -/
theorem claim_c2_enum_error_policy (env : Env M D) (kappa : ℕ) (params : BKZParams D)
    (block_size : ℕ) (msg : ℕ)
    (hstub : ∀ B dist expo,
      env.enumerate B dist expo kappa (kappa + block_size) params.pruning = .error msg) :
    (∀ st : DriverState M, params.flags.gh_bnd = true →
      svp_call env kappa params block_size st = .ok (none, st)) ∧
    (∀ st : DriverState M, params.flags.gh_bnd = false →
      svp_call env kappa params block_size st = .raised (.enumerationError msg)) ∧
    (∀ (fuel : ℕ) (stats : Bool) (st : DriverState M),
      params.preprocessing = none → params.flags.gh_bnd = false →
      exec env (fuel + 2) (.svp_reduction kappa params block_size stats st) =
        .raised (.enumerationError msg)) := by
  refine ⟨fun st hgh => ?_, fun st hgh => ?_, fun fuel stats st hpre hgh => ?_⟩
  · simp only [svp_call, hstub, hgh, if_true]
  · simp only [svp_call, hstub, hgh, Bool.false_eq_true, if_false]
  · simp only [exec, hpre, svp_call, hstub, hgh, Bool.false_eq_true, if_false]

theorem claim_c2_witness :
    svp_call envErrW 0 paramsGhW 2 stW = .ok (none, stW) ∧
    svp_call envErrW 0 paramsNoGhW 2 stW = .raised (.enumerationError 7) ∧
    exec envErrW 3 (.svp_reduction 0 paramsNoGhW 2 true stW) =
      .raised (.enumerationError 7) :=
  ⟨(claim_c2_enum_error_policy envErrW 0 paramsGhW 2 7 (fun _ _ _ => rfl)).1 stW rfl,
   (claim_c2_enum_error_policy envErrW 0 paramsNoGhW 2 7 (fun _ _ _ => rfl)).2.1 stW rfl,
   (claim_c2_enum_error_policy envErrW 0 paramsNoGhW 2 7 (fun _ _ _ => rfl)).2.2 1 true stW
     rfl rfl⟩

/-! ## Claim C4: the acceptance threshold of `svp_call` -/

/-- **C4.** `svp_call` computes `delta_max_dist = δ * r(kappa, kappa)` from
the orthogonalized norm read *before* any Gaussian-heuristic replacement of
the search bound (the conclusion's threshold uses `r_exp`, not `gh_dist`,
whatever the `GH_BND` flag is), and on a successful enumeration returns the
no-solution sentinel iff the returned distance fails to beat that
threshold, the solution coordinates otherwise. -/
theorem claim_c4_threshold (env : Env M D) (kappa : ℕ) (params : BKZParams D)
    (block_size : ℕ) (st : DriverState M) (sol : List ℤ) (d0 : D)
    (hok : ∀ dist expo,
      env.enumerate st.B dist expo kappa (kappa + block_size) params.pruning = .ok (sol, d0)) :
    svp_call env kappa params block_size st =
      if env.delta * (env.r_exp st.B kappa).1 ≤ d0 then .ok (none, st)
      else .ok (some sol, st) := by
  simp only [svp_call, hok]

theorem claim_c4_witness :
    svp_call envOkW 0 paramsNoGhW 2 stW = .ok (some [1, 0], stW) := by
  rw [claim_c4_threshold envOkW 0 paramsNoGhW 2 stW [1, 0] 5 (fun _ _ => rfl)]
  decide

/-! ## Claim C3: termination conditions of the `__call__` loop -/

/-- **C3.** After a completed tour, the `__call__` loop exits exactly when
the flat disjunction `callExit` holds — tour clean, or block size ≥ row
count, or auto-abort enabled and firing, or loop budget enabled and
reached, or time budget enabled and exhausted — and an exit is always a
normal `.ok` return, never an exception: budget exhaustion does not raise.
When `callExit` is false the loop continues with the next iteration
(`i + 1`) on the same basis. -/
theorem claim_c3_loop_exit (env : Env M D) (params : BKZParams D) (aaStop fuel i : ℕ)
    (t0 : D) (st : DriverState M) (clean : Bool) (st1 : DriverState M)
    (htour : exec env fuel (.tour params 0 st.B.length true st) = .ok (clean, st1)) :
    (callExit env params aaStop i t0 clean st1 = true →
      ∃ st2, callLoop env params aaStop (fuel + 1) i t0 st = .ok st2 ∧
        st2.B = st1.B ∧ st2.log = st1.log) ∧
    (callExit env params aaStop i t0 clean st1 = false →
      ∃ st2, callLoop env params aaStop (fuel + 1) i t0 st =
          callLoop env params aaStop fuel (i + 1) t0 st2 ∧ st2.B = st1.B) := by
  simp only [callLoop, htour, callExit]
  cases hc1 : (clean || decide (st1.B.length ≤ params.block_size)) with
  | true =>
    simp only [hc1, Bool.true_or, if_true]
    exact ⟨fun _ => ⟨st1, rfl, rfl, rfl⟩, fun h => by simp at h⟩
  | false =>
    simp only [hc1, Bool.false_or, if_false]
    cases hc2 : (params.flags.auto_abort && env.test_abort aaStop 0 i st1.B) with
    | true =>
      simp only [hc2, Bool.true_or, if_true]
      exact ⟨fun _ => ⟨st1, rfl, rfl, rfl⟩, fun h => by simp at h⟩
    | false =>
      simp only [hc2, Bool.false_or, if_false]
      cases hc3 : (params.flags.max_loops && decide (params.max_loops ≤ i)) with
      | true =>
        simp only [hc3, Bool.true_or, if_true]
        exact ⟨fun _ => ⟨st1, rfl, rfl, rfl⟩, fun h => by simp at h⟩
      | false =>
        simp only [hc3, Bool.false_or, if_false]
        cases hc4 : params.flags.max_time with
        | true =>
          simp only [hc4, Bool.true_and, if_true]
          cases hc5 : decide (params.max_time ≤ env.clock st1.tick - t0) with
          | true =>
            simp only [hc5, if_pos (of_decide_eq_true hc5)]
            exact ⟨fun _ => ⟨_, rfl, rfl, rfl⟩, fun h => by simp at h⟩
          | false =>
            simp only [hc5, if_neg (of_decide_eq_false hc5)]
            exact ⟨fun h => by simp at h, fun _ => ⟨_, rfl, rfl⟩⟩
        | false =>
          simp only [hc4, Bool.false_and, Bool.or_false, if_false]
          exact ⟨fun h => by simp at h, fun _ => ⟨st1, rfl, rfl⟩⟩

theorem claim_c3_witness :
    ∃ st2, callLoop envC3W paramsMlW 3 7 0 0 stW = .ok st2 ∧
      st2.B = stC3W.B ∧ st2.log = stC3W.log :=
  (claim_c3_loop_exit envC3W paramsMlW 3 6 0 0 stW false stC3W (by decide)).1 (by decide)

/-! ## Span toolbox: the GSO row operations are lattice preserving -/

theorem exists_getElem_or_mem_eraseIdx {α : Type _} {B : List α} {i : ℕ}
    (hi : i < B.length) {x : α} (hx : x ∈ B) : x = B[i] ∨ x ∈ B.eraseIdx i := by
  induction B generalizing i with
  | nil => cases hx
  | cons a t ih =>
    cases i with
    | zero => simpa using hx
    | succ n =>
      rcases List.mem_cons.1 hx with h | h
      · exact Or.inr (by simp [List.eraseIdx_cons_succ, h])
      · rcases ih (Nat.lt_of_succ_lt_succ hi) h with h2 | h2
        · exact Or.inl (by simpa using h2)
        · exact Or.inr (by simp [List.eraseIdx_cons_succ, h2])

theorem mem_set_or_eq_getElem {α : Type _} {B : List α} {d : ℕ}
    (hd : d < B.length) {v x : α} (hx : x ∈ B) : x ∈ B.set d v ∨ x = B[d] := by
  induction B generalizing d with
  | nil => cases hx
  | cons a t ih =>
    cases d with
    | zero =>
      rcases List.mem_cons.1 hx with h | h
      · exact Or.inr (by simpa using h)
      · exact Or.inl (by simp [h])
    | succ n =>
      rcases List.mem_cons.1 hx with h | h
      · exact Or.inl (by simp [h])
      · rcases ih (Nat.lt_of_succ_lt_succ hd) h with h2 | h2
        · exact Or.inl (by simp [List.set_cons_succ, h2])
        · exact Or.inr (by simpa using h2)

theorem set_append_last {α : Type _} (B : List α) (w v : α) :
    (B ++ [w]).set B.length v = B ++ [v] := by
  induction B with
  | nil => rfl
  | cons a t ih => simp [List.set_cons_succ, ih]

theorem mem_latt {B : List M} {x : M} (h : x ∈ B) : x ∈ latt B :=
  Submodule.subset_span h

theorem latt_le_of_forall {B C : List M} (h : ∀ x ∈ B, x ∈ latt C) : latt B ≤ latt C :=
  Submodule.span_le.2 h

theorem latt_eq_of_mem_iff {B C : List M} (h : ∀ x, x ∈ B ↔ x ∈ C) : latt B = latt C := by
  unfold latt
  congr 1
  ext x
  exact h x

theorem moveRow_length {B : List M} {i j : ℕ} (hi : i < B.length)
    (hj : j + 1 ≤ B.length) : (moveRow B i j).length = B.length := by
  rw [moveRow, List.getElem?_eq_getElem hi]
  have h1 : (B.eraseIdx i).length = B.length - 1 := by
    rw [List.length_eraseIdx, if_pos hi]
  rw [List.length_insertIdx _ _ (by omega), h1]
  omega

theorem latt_moveRow {B : List M} {i j : ℕ} (hi : i < B.length)
    (hj : j + 1 ≤ B.length) : latt (moveRow B i j) = latt B := by
  rw [moveRow, List.getElem?_eq_getElem hi]
  have h1 : (B.eraseIdx i).length = B.length - 1 := by
    rw [List.length_eraseIdx, if_pos hi]
  apply latt_eq_of_mem_iff
  intro x
  rw [List.mem_insertIdx (by omega)]
  constructor
  · rintro (rfl | hx)
    · exact List.getElem_mem hi
    · exact (List.eraseIdx_sublist B i).mem hx
  · intro hx
    rcases exists_getElem_or_mem_eraseIdx hi hx with h | h
    · exact Or.inl h
    · exact Or.inr h

theorem latt_concat_zero (B : List M) : latt (B ++ [(0 : M)]) = latt B := by
  apply le_antisymm
  · apply latt_le_of_forall
    intro x hx
    rcases List.mem_append.1 hx with h | h
    · exact mem_latt h
    · rw [List.mem_singleton.1 h]
      exact (latt B).zero_mem
  · exact latt_le_of_forall fun x hx => mem_latt (List.mem_append_left _ hx)

theorem rowAddmul_length (B : List M) (d s : ℕ) (c : ℤ) :
    (rowAddmul B d s c).length = B.length :=
  List.length_set ..

theorem latt_rowAddmul {B : List M} {d s : ℕ} (hd : d < B.length) (hs : s < B.length)
    (hds : d ≠ s) (c : ℤ) : latt (rowAddmul B d s c) = latt B := by
  rw [rowAddmul, List.getD_eq_getElem B 0 hd, List.getD_eq_getElem B 0 hs]
  set v := B[d] + c • B[s] with hv
  have hd2 : d < (B.set d v).length := by rw [List.length_set]; exact hd
  have hs2 : s < (B.set d v).length := by rw [List.length_set]; exact hs
  have hvmem : v ∈ B.set d v := by
    have h := List.getElem_mem hd2
    rwa [List.getElem_set_self] at h
  have hsmem : B[s] ∈ B.set d v := by
    have h := List.getElem_mem hs2
    rwa [List.getElem_set_ne hds] at h
  apply le_antisymm
  · apply latt_le_of_forall
    intro x hx
    rcases List.mem_or_eq_of_mem_set hx with h | rfl
    · exact mem_latt h
    · exact Submodule.add_mem _ (mem_latt (List.getElem_mem hd))
        (Submodule.smul_mem _ c (mem_latt (List.getElem_mem hs)))
  · apply latt_le_of_forall
    intro x hx
    rcases mem_set_or_eq_getElem hd hx (v := v) with h | rfl
    · exact mem_latt h
    · have hbd : B[d] = v - c • B[s] := by rw [hv]; abel
      rw [hbd]
      exact Submodule.sub_mem _ (mem_latt hvmem)
        (Submodule.smul_mem _ c (mem_latt hsmem))

theorem latt_eraseIdx_of_getD_zero {B : List M} {p : ℕ} (hp : p < B.length)
    (h0 : B.getD p 0 = 0) : latt (B.eraseIdx p) = latt B := by
  apply le_antisymm
  · exact latt_le_of_forall fun x hx => mem_latt ((List.eraseIdx_sublist B p).mem hx)
  · apply latt_le_of_forall
    intro x hx
    rcases exists_getElem_or_mem_eraseIdx hp hx with h | h
    · rw [h, ← List.getD_eq_getElem B 0 hp, h0]
      exact (latt _).zero_mem
    · exact mem_latt h

theorem moveRow_eq_of_lt {B : List M} {i : ℕ} (hi : i < B.length) (j : ℕ) :
    moveRow B i j = (B.eraseIdx i).insertIdx j (B.get ⟨i, hi⟩) := by
  unfold moveRow
  rw [List.getElem?_eq_getElem hi]
  rfl

theorem drop_succ_insertIdx {α : Type _} :
    ∀ (B : List α) (kappa : ℕ) (v : α), kappa ≤ B.length →
      (B.insertIdx kappa v).drop (kappa + 1) = B.drop kappa := by
  intro B
  induction B with
  | nil =>
    intro kappa v hk
    have h0 : kappa = 0 := by simpa using hk
    subst h0
    rfl
  | cons a t ih =>
    intro kappa v hk
    cases kappa with
    | zero => rfl
    | succ n =>
      rw [List.insertIdx_succ_cons, List.drop_succ_cons, List.drop_succ_cons,
        ih n v (by simpa using hk)]

theorem latt_insertIdx {B : List M} {v : M} {j : ℕ} (hj : j ≤ B.length)
    (hv : v ∈ latt B) : latt (B.insertIdx j v) = latt B := by
  apply le_antisymm
  · apply latt_le_of_forall
    intro x hx
    rcases (List.mem_insertIdx hj).1 hx with rfl | h
    · exact hv
    · exact mem_latt h
  · exact latt_le_of_forall fun x hx => mem_latt ((List.mem_insertIdx hj).2 (Or.inr hx))

/-- The accumulation loop of `svp_postprocessing` (the `row_addmul` calls
inside the `row_ops` batch): starting from `B0` with a fresh last row `w`,
it adds `Σ_i solution[i] · row (kappa+i)` into that row and touches nothing
else. -/
theorem addmul_fold_concat {B0 : List M} {kappa : ℕ} {s : List ℤ} :
    ∀ (l : List ℕ) (w : M), (∀ i ∈ l, kappa + i < B0.length) →
      l.foldl (fun Bb i => rowAddmul Bb B0.length (kappa + i) (s.getD i 0)) (B0 ++ [w]) =
        B0 ++ [w + (l.map (fun i => s.getD i 0 • B0.getD (kappa + i) 0)).sum] := by
  intro l
  induction l with
  | nil => intro w _; simp
  | cons i t ih =>
    intro w hlt
    have hi : kappa + i < B0.length := hlt i (List.mem_cons_self ..)
    have h1 : (B0 ++ [w]).getD B0.length 0 = w := by
      rw [List.getD_eq_getElem _ 0 (by simp), List.getElem_concat_length _ _ _ rfl]
    have h2 : (B0 ++ [w]).getD (kappa + i) 0 = B0.getD (kappa + i) 0 := by
      rw [List.getD_eq_getElem _ 0 (by simp; omega), List.getElem_append_left hi,
        List.getD_eq_getElem _ 0 hi]
    have step : rowAddmul (B0 ++ [w]) B0.length (kappa + i) (s.getD i 0) =
        B0 ++ [w + s.getD i 0 • B0.getD (kappa + i) 0] := by
      rw [rowAddmul, h1, h2, set_append_last]
    rw [List.foldl_cons, step, ih _ (fun j hj => hlt j (List.mem_cons_of_mem _ hj))]
    simp [add_assoc]

theorem sum_map_mem_latt {B0 : List M} {kappa bs : ℕ} {s : List ℤ}
    (h : kappa + bs ≤ B0.length) :
    ((List.range bs).map (fun i => s.getD i 0 • B0.getD (kappa + i) 0)).sum ∈ latt B0 := by
  apply list_sum_mem
  intro x hx
  rcases List.mem_map.1 hx with ⟨i, hi, rfl⟩
  have hik : kappa + i < B0.length := by
    have := List.mem_range.1 hi
    omega
  refine Submodule.smul_mem _ _ (mem_latt ?_)
  rw [List.getD_eq_getElem _ 0 hik]
  exact List.getElem_mem hik

/-- Each block row survives, shifted by one, in the slice
`(insertIdx kappa v B0).drop (kappa+1) |>.take bs` that the LLL
zero-row contract quantifies over. -/
theorem block_row_mem_slice {B0 : List M} {v : M} {kappa i bs : ℕ}
    (hi : i < bs) (hlt : kappa + bs ≤ B0.length) :
    B0.getD (kappa + i) 0 ∈ ((B0.insertIdx kappa v).drop (kappa + 1)).take bs := by
  have hik : kappa + i < B0.length := by omega
  rw [drop_succ_insertIdx B0 kappa v (by omega)]
  have hiL : i < ((B0.drop kappa).take bs).length := by
    rw [List.length_take, List.length_drop]
    omega
  have hL : ((B0.drop kappa).take bs).get ⟨i, hiL⟩ = B0.getD (kappa + i) 0 := by
    rw [List.get_eq_getElem, List.getElem_take, List.getElem_drop,
      List.getD_eq_getElem _ 0 hik]
  rw [← hL]
  exact List.get_mem ..

/-- `svp_postprocessing` preserves the spanned lattice and the row count on
every normal return: the single-nonzero branch is a row move plus size
reduction, and the scratch-row branch appends a row lying in the span,
LLL-reduces, and removes the zero row it leaves behind. -/
theorem svp_postprocessing_latt {env : Env M D} (h : EnvOK env)
    {solution : Option (List ℤ)} {kappa block_size : ℕ} {st : DriverState M}
    (hbs : kappa + block_size ≤ st.B.length) {b : Bool} {st' : DriverState M}
    (hx : svp_postprocessing env solution kappa block_size st = .ok (b, st')) :
    latt st'.B = latt st.B ∧ st'.B.length = st.B.length := by
  cases solution with
  | none =>
    simp only [svp_postprocessing, Outcome.ok.injEq, Prod.mk.injEq] at hx
    rw [← hx.2]
    exact ⟨rfl, rfl⟩
  | some s =>
    simp only [svp_postprocessing] at hx
    by_cases hc : (s.filter (fun x => x != 0)).length = 1
    · rw [if_pos hc] at hx
      cases hf : (List.range block_size).find? (fun i => (s.getD i 0).natAbs == 1) with
      | none => rw [hf] at hx; cases hx
      | some i =>
        rw [hf] at hx
        have hi : i < block_size := List.mem_range.1 (List.mem_of_find?_eq_some hf)
        simp only [Outcome.ok.injEq, Prod.mk.injEq] at hx
        rw [← hx.2]
        have hik : kappa + i < st.B.length := by omega
        have hk1 : kappa + 1 ≤ st.B.length := by omega
        constructor
        · rw [h.sr_latt, latt_moveRow hik hk1]
        · rw [h.sr_len, moveRow_length hik hk1]
    · rw [if_neg hc] at hx
      have hk : kappa ≤ st.B.length := by omega
      set vv := ((List.range block_size).map
        (fun i => s.getD i 0 • st.B.getD (kappa + i) 0)).sum with hvv
      have hfold : (List.range block_size).foldl
          (fun Bb i => rowAddmul Bb st.B.length (kappa + i) (s.getD i 0))
          (st.B ++ [0]) = st.B ++ [vv] := by
        rw [addmul_fold_concat (List.range block_size) 0
          (fun j hj => by have := List.mem_range.1 hj; omega), zero_add]
      have hB2 : moveRow (st.B ++ [vv]) st.B.length kappa = st.B.insertIdx kappa vv := by
        rw [moveRow, List.getElem?_concat_length,
          List.eraseIdx_append_of_length_le (le_refl st.B.length)]
        simp
      rw [hfold, hB2] at hx
      have hins : (st.B.insertIdx kappa vv).length = st.B.length + 1 :=
        List.length_insertIdx _ _ hk
      have hvmem : vv ∈ latt st.B := sum_map_mem_latt hbs
      have hB2latt : latt (st.B.insertIdx kappa vv) = latt st.B := latt_insertIdx hk hvmem
      have hpremise : (st.B.insertIdx kappa vv).getD kappa 0 ∈
          Submodule.span ℤ
            {x | x ∈ ((st.B.insertIdx kappa vv).drop (kappa + 1)).take block_size} := by
        have hgd : (st.B.insertIdx kappa vv).getD kappa 0 = vv := by
          rw [List.getD_eq_getElem _ 0 (by omega), List.getElem_insertIdx_self _ _ _ hk]
        rw [hgd, hvv]
        apply list_sum_mem
        intro x hxm
        rcases List.mem_map.1 hxm with ⟨j, hj, rfl⟩
        exact Submodule.smul_mem _ _
          (Submodule.subset_span (block_row_mem_slice (List.mem_range.1 hj) hbs))
      have hz := h.lll_zero kappa block_size (st.B.insertIdx kappa vv) hpremise
      have hplatt := h.lll_latt kappa kappa (kappa + block_size + 1) (st.B.insertIdx kappa vv)
      have hplen := h.lll_len kappa kappa (kappa + block_size + 1) (st.B.insertIdx kappa vv)
      set p := env.lll kappa kappa (kappa + block_size + 1) (st.B.insertIdx kappa vv) with hp
      have hkb : kappa + block_size < p.1.length := by rw [hplen, hins]; omega
      have hE : (p.1.eraseIdx (kappa + block_size)).length = st.B.length := by
        rw [List.length_eraseIdx, if_pos hkb, hplen, hins]
        omega
      have hmv : (moveRow p.1 (kappa + block_size) st.B.length).dropLast =
          p.1.eraseIdx (kappa + block_size) := by
        rw [moveRow_eq_of_lt hkb, ← hE, List.insertIdx_length_self,
          List.dropLast_concat]
      simp only [Outcome.ok.injEq, Prod.mk.injEq] at hx
      rw [← hx.2]
      constructor
      · show latt (moveRow p.1 (kappa + block_size) st.B.length).dropLast = latt st.B
        rw [hmv, latt_eraseIdx_of_getD_zero hkb hz, hplatt, hB2latt]
      · show (moveRow p.1 (kappa + block_size) st.B.length).dropLast.length = st.B.length
        rw [hmv, hE]

/-- `svp_call` never mutates the driver state: the oracle is a read-only
query. -/
theorem svp_call_ok_state {env : Env M D} {kappa : ℕ} {params : BKZParams D}
    {block_size : ℕ} {st : DriverState M} {a : Option (List ℤ)} {st2 : DriverState M}
    (hx : svp_call env kappa params block_size st = .ok (a, st2)) : st2 = st := by
  simp only [svp_call] at hx
  split at hx
  · split at hx
    · simp only [Outcome.ok.injEq, Prod.mk.injEq] at hx
      exact hx.2.symm
    · cases hx
  · split at hx <;>
      (simp only [Outcome.ok.injEq, Prod.mk.injEq] at hx; exact hx.2.symm)

/-- Master invariant: every normally returning driver fragment preserves
the spanned lattice and the row count, given the collaborator contract
`EnvOK`. -/
theorem exec_latt {env : Env M D} (h : EnvOK env) :
    ∀ (fuel : ℕ) (k : CallK M D) (b : Bool) (st' : DriverState M),
      exec env fuel k = .ok (b, st') → k.pre →
      latt st'.B = latt k.stIn.B ∧ st'.B.length = k.stIn.B.length := by
  intro fuel
  induction fuel with
  | zero =>
    intro k b st' hx
    simp [exec] at hx
  | succ fuel ih =>
    intro k b st' hx hpre
    cases k with
    | tour params min_row max_row stats st =>
      simp only [exec] at hx
      have hpre2 : (CallK.tourFold params max_row stats
          (List.range' min_row (max_row - 1 - min_row)) true st).pre (M := M) (D := D) := by
        refine ⟨hpre, fun kk hkk => ?_⟩
        rcases List.mem_range'.1 hkk with ⟨j, hj, rfl⟩
        omega
      obtain ⟨hl, hn⟩ := ih _ b st' hx hpre2
      exact ⟨hl, hn⟩
    | tourFold params max_row stats ks clean st =>
      obtain ⟨hmr, hks⟩ := hpre
      cases ks with
      | nil =>
        simp only [exec, Outcome.ok.injEq, Prod.mk.injEq] at hx
        rw [← hx.2]
        exact ⟨rfl, rfl⟩
      | cons kappa ks =>
        simp only [exec] at hx
        split at hx
        · cases hx
        · cases hx
        · rename_i c st1 heq
          have hpre1 : kappa + min params.block_size (max_row - kappa) ≤ st.B.length := by
            have h2 := min_le_right params.block_size (max_row - kappa)
            have h3 := hks kappa (List.mem_cons_self ..)
            omega
          obtain ⟨hl1, hn1⟩ := ih _ c st1 heq hpre1
          simp only [CallK.stIn] at hl1 hn1
          have hB2 : (if stats = true then { st1 with log := st1.log ++ [(kappa, clean && c)] }
              else st1).B = st1.B := by
            split <;> rfl
          obtain ⟨hl2, hn2⟩ := ih _ b st' hx
            ⟨by rw [hB2, hn1]; exact hmr,
             fun kk hkk => hks kk (List.mem_cons_of_mem _ hkk)⟩
          simp only [CallK.stIn] at hl2 hn2
          rw [hB2] at hl2 hn2
          exact ⟨hl2.trans hl1, hn2.trans hn1⟩
    | svp_reduction kappa params block_size stats st =>
      simp only [exec] at hx
      split at hx
      · cases hx
      · cases hx
      · rename_i clean_pre st1 heq1
        obtain ⟨hl1, hn1⟩ := ih _ clean_pre st1 heq1 hpre
        simp only [CallK.stIn] at hl1 hn1
        split at hx
        · cases hx
        · cases hx
        · rename_i solution st2 heq2
          have hst2 : st2 = st1 := svp_call_ok_state heq2
          subst hst2
          split at hx
          · cases hx
          · cases hx
          · rename_i clean_post st3 heq3
            obtain ⟨hl3, hn3⟩ := svp_postprocessing_latt h (by rw [hn1]; exact hpre) heq3
            simp only [Outcome.ok.injEq, Prod.mk.injEq] at hx
            rw [← hx.2]
            exact ⟨hl3.trans hl1, hn3.trans hn1⟩
    | svp_preprocessing kappa params block_size st =>
      simp only [exec] at hx
      have hll := h.lll_latt 0 kappa (kappa + block_size) st.B
      have hln := h.lll_len 0 kappa (kappa + block_size) st.B
      split at hx
      · simp only [Outcome.ok.injEq, Prod.mk.injEq] at hx
        rw [← hx.2]
        exact ⟨hll, hln⟩
      · obtain ⟨hl2, hn2⟩ := ih _ b st' hx (by
          show kappa + block_size ≤ (env.lll 0 kappa (kappa + block_size) st.B).1.length
          rw [hln]; exact hpre)
        simp only [CallK.stIn] at hl2 hn2
        exact ⟨hl2.trans hll, hn2.trans hln⟩
    | preprocLoop preproc kappa block_size i t0 clean st =>
      simp only [exec] at hx
      split at hx
      · cases hx
      · cases hx
      · rename_i clean_inner st1 heq
        obtain ⟨hl1, hn1⟩ := ih _ clean_inner st1 heq hpre
        simp only [CallK.stIn] at hl1 hn1
        split at hx
        · simp only [Outcome.ok.injEq, Prod.mk.injEq] at hx
          rw [← hx.2]
          exact ⟨hl1, hn1⟩
        · split at hx
          · simp only [Outcome.ok.injEq, Prod.mk.injEq] at hx
            rw [← hx.2]
            exact ⟨hl1, hn1⟩
          · split at hx
            · simp only [Outcome.ok.injEq, Prod.mk.injEq] at hx
              rw [← hx.2]
              exact ⟨hl1, hn1⟩
            · split at hx
              · split at hx
                · simp only [Outcome.ok.injEq, Prod.mk.injEq] at hx
                  rw [← hx.2]
                  exact ⟨hl1, hn1⟩
                · obtain ⟨hl2, hn2⟩ := ih _ b st' hx (by
                    show kappa + block_size ≤ st1.B.length
                    rw [hn1]; exact hpre)
                  simp only [CallK.stIn] at hl2 hn2
                  exact ⟨hl2.trans hl1, hn2.trans hn1⟩
              · obtain ⟨hl2, hn2⟩ := ih _ b st' hx (by
                  show kappa + block_size ≤ st1.B.length
                  rw [hn1]; exact hpre)
                simp only [CallK.stIn] at hl2 hn2
                exact ⟨hl2.trans hl1, hn2.trans hn1⟩

theorem callLoop_latt {env : Env M D} (h : EnvOK env) (params : BKZParams D) (aaStop : ℕ) :
    ∀ (fuel i : ℕ) (t0 : D) (st st' : DriverState M),
      callLoop env params aaStop fuel i t0 st = .ok st' →
      latt st'.B = latt st.B ∧ st'.B.length = st.B.length := by
  intro fuel
  induction fuel with
  | zero =>
    intro i t0 st st' hx
    simp [callLoop] at hx
  | succ fuel ih =>
    intro i t0 st st' hx
    simp only [callLoop] at hx
    split at hx
    · cases hx
    · cases hx
    · rename_i clean st1 heq
      obtain ⟨hl1, hn1⟩ := exec_latt h fuel _ clean st1 heq (le_refl st.B.length)
      simp only [CallK.stIn] at hl1 hn1
      split at hx
      · simp only [Outcome.ok.injEq] at hx
        rw [← hx]
        exact ⟨hl1, hn1⟩
      · split at hx
        · simp only [Outcome.ok.injEq] at hx
          rw [← hx]
          exact ⟨hl1, hn1⟩
        · split at hx
          · simp only [Outcome.ok.injEq] at hx
            rw [← hx]
            exact ⟨hl1, hn1⟩
          · split at hx
            · split at hx
              · simp only [Outcome.ok.injEq] at hx
                rw [← hx]
                exact ⟨hl1, hn1⟩
              · obtain ⟨hl2, hn2⟩ := ih _ _ _ _ hx
                exact ⟨hl2.trans hl1, hn2.trans hn1⟩
            · obtain ⟨hl2, hn2⟩ := ih _ _ _ _ hx
              exact ⟨hl2.trans hl1, hn2.trans hn1⟩

/-! ## Claim C1: lattice invariance of the driver -/

/-- **C1.** Under the collaborator contract `EnvOK` (the external LLL and
size-reduction calls act unimodularly on the rows, and LLL eliminates the
dependency introduced by the scratch row), every normally-returning driver
operation — a single `svp_reduction` at any in-range index, a single
`tour`, and a full `__call__` run — leaves the integer lattice spanned by
the basis rows unchanged: all the row mutations the driver itself performs
(row moves, the scratch-row create/accumulate/insert/LLL/remove sequence)
are unimodular transformations. -/
theorem claim_c1_lattice_invariance {env : Env M D} (h : EnvOK env) :
    (∀ (fuel kappa : ℕ) (params : BKZParams D) (block_size : ℕ) (stats : Bool)
        (st : DriverState M) (b : Bool) (st' : DriverState M),
        kappa + block_size ≤ st.B.length →
        svp_reduction env fuel kappa params block_size stats st = .ok (b, st') →
        latt st'.B = latt st.B) ∧
    (∀ (fuel : ℕ) (params : BKZParams D) (min_row max_row : ℕ) (stats : Bool)
        (st : DriverState M) (b : Bool) (st' : DriverState M),
        max_row ≤ st.B.length →
        tour env fuel params min_row max_row stats st = .ok (b, st') →
        latt st'.B = latt st.B) ∧
    (∀ (fuel : ℕ) (params : BKZParams D) (st st' : DriverState M),
        call env params fuel st = .ok st' →
        latt st'.B = latt st.B) := by
  refine ⟨fun fuel kappa params block_size stats st b st' hr hx => ?_,
    fun fuel params min_row max_row stats st b st' hr hx => ?_,
    fun fuel params st st' hx => ?_⟩
  · exact (exec_latt h fuel _ b st' hx hr).1
  · exact (exec_latt h fuel _ b st' hx hr).1
  · exact (callLoop_latt h params st.B.length fuel 0 (env.clock st.tick)
      { st with tick := st.tick + 1 } st' hx).1

theorem envPU_ok : EnvOK envPU :=
  ⟨fun _ _ _ _ => rfl, fun _ _ _ _ => rfl, fun _ _ _ => rfl, fun _ _ _ => rfl,
   fun _ _ _ _ => Subsingleton.elim _ _⟩

theorem claim_c1_witness :
    latt stPU2.B = latt stPU.B ∧ call envPU paramsPU 5 stPU = .ok stPU2 :=
  ⟨(claim_c1_lattice_invariance envPU_ok).2.2 5 paramsPU stPU stPU2 (by decide), by decide⟩

/-! ## Claims C7, C8, C10: the two insertion branches of `svp_postprocessing` -/

theorem filter_nonzero_pos {s : List ℤ} {i : ℕ} (hi : i < s.length)
    (hne : s.getD i 0 ≠ 0) : 0 < (s.filter (fun x => x != 0)).length := by
  have hmem : s.getD i 0 ∈ s.filter (fun x => x != 0) := by
    refine List.mem_filter.2 ⟨?_, by simpa using hne⟩
    rw [List.getD_eq_getElem _ 0 hi]
    exact List.getElem_mem hi
  exact List.length_pos.2 (List.ne_nil_of_mem hmem)

theorem two_le_filter_nonzero :
    ∀ {s : List ℤ} {i j : ℕ}, i < j → j < s.length →
      s.getD i 0 ≠ 0 → s.getD j 0 ≠ 0 → 2 ≤ (s.filter (fun x => x != 0)).length := by
  intro s
  induction s with
  | nil =>
    intro i j _ hj
    simp at hj
  | cons a t ih =>
    intro i j hij hj hi0 hj0
    cases i with
    | zero =>
      have ha : a ≠ 0 := by simpa using hi0
      cases j with
      | zero => omega
      | succ m =>
        have hm : m < t.length := by simpa using hj
        have hmne : t.getD m 0 ≠ 0 := by simpa using hj0
        have h1 : 0 < (t.filter (fun x => x != 0)).length := filter_nonzero_pos hm hmne
        rw [List.filter_cons, if_pos (by simpa using ha)]
        simp only [List.length_cons]
        omega
    | succ n =>
      cases j with
      | zero => omega
      | succ m =>
        have h1 := ih (i := n) (j := m) (by omega) (by simpa using hj)
          (by simpa using hi0) (by simpa using hj0)
        have h2 : (t.filter (fun x => x != 0)).length ≤
            ((a :: t).filter (fun x => x != 0)).length := by
          rw [List.filter_cons]
          split
          · simp only [List.length_cons]
            omega
          · exact le_refl _
        omega

/-- A solution with a single nonzero coordinate is zero at every other
index. -/
theorem unique_nonzero_of_filter_one {s : List ℤ}
    (hc : (s.filter (fun x => x != 0)).length = 1) {i : ℕ} (hi : i < s.length)
    (hne : s.getD i 0 ≠ 0) : ∀ j, j ≠ i → s.getD j 0 = 0 := by
  intro j hji
  by_contra hj0
  have hj : j < s.length := by
    by_contra hjge
    exact hj0 (List.getD_eq_default _ _ (by omega))
  rcases Nat.lt_or_ge j i with hlt | hge
  · have := two_le_filter_nonzero hlt hi hj0 hne
    omega
  · have hgt : i < j := by omega
    have := two_le_filter_nonzero hgt hj hne hj0
    omega

theorem find?_range'_eq_some {p : ℕ → Bool} {i : ℕ} :
    ∀ (n a : ℕ), a ≤ i → i < a + n → (∀ j, a ≤ j → j < i → p j = false) →
      p i = true → (List.range' a n).find? p = some i := by
  intro n
  induction n with
  | zero =>
    intro a h1 h2
    omega
  | succ n ih =>
    intro a h1 h2 hlt hp
    rw [List.range'_succ, List.find?_cons]
    rcases Nat.eq_or_lt_of_le h1 with rfl | hlt2
    · rw [hp]
    · rw [hlt a (le_refl a) hlt2]
      exact ih (a + 1) hlt2 (by omega) (fun j hj1 hj2 => hlt j (by omega) hj2) hp

theorem find?_range_eq_some {p : ℕ → Bool} {i bs : ℕ} (hi : i < bs)
    (hlt : ∀ j, j < i → p j = false) (hp : p i = true) :
    (List.range bs).find? p = some i := by
  rw [List.range_eq_range']
  exact find?_range'_eq_some bs 0 (Nat.zero_le i) (by omega)
    (fun j _ hj => hlt j hj) hp

/-- The single-nonzero branch of `svp_postprocessing`: when the lone
nonzero coordinate is ±1 at local offset `i`, the offset search finds
exactly `i` and the function performs one `move_row(kappa+i, kappa)`
followed by `size_reduction(kappa, kappa+1)`, returning `clean = False`. -/
theorem svp_postprocessing_single {env : Env M D} {s : List ℤ}
    {kappa block_size i : ℕ} {st : DriverState M}
    (hc : (s.filter (fun x => x != 0)).length = 1)
    (hi : i < block_size) (hval : (s.getD i 0).natAbs = 1) :
    svp_postprocessing env (some s) kappa block_size st =
      .ok (false, { st with
        B := env.size_reduction kappa (kappa + 1) (moveRow st.B (kappa + i) kappa) }) := by
  have hinz : s.getD i 0 ≠ 0 := by
    intro h0
    rw [h0] at hval
    simp at hval
  have his : i < s.length := by
    by_contra hge
    rw [List.getD_eq_default _ _ (by omega)] at hval
    simp at hval
  have hz := unique_nonzero_of_filter_one hc his hinz
  have hfind : (List.range block_size).find? (fun j => (s.getD j 0).natAbs == 1) = some i := by
    refine find?_range_eq_some hi (fun j hj => ?_) (by simpa using hval)
    rw [hz j (by omega)]
    rfl
  simp only [svp_postprocessing, if_pos hc, hfind]

/-- **C7.** A solution with exactly one nonzero coordinate, equal to ±1 at
local offset `i`, makes `svp_postprocessing` perform exactly one row
permutation (`kappa+i → kappa`) plus a size reduction of row `kappa` only,
keep the row count unchanged (no scratch row is created or removed), and
return `clean = false`. -/
theorem claim_c7_single_solution {env : Env M D} {s : List ℤ}
    {kappa block_size i : ℕ} {st : DriverState M}
    (hc : (s.filter (fun x => x != 0)).length = 1)
    (hi : i < block_size) (hval : s.getD i 0 = 1 ∨ s.getD i 0 = -1)
    (hlen : kappa + block_size ≤ st.B.length)
    (hsr_len : ∀ l h B, (env.size_reduction l h B : List M).length = B.length) :
    svp_postprocessing env (some s) kappa block_size st =
      .ok (false, { st with
        B := env.size_reduction kappa (kappa + 1) (moveRow st.B (kappa + i) kappa) }) ∧
    (env.size_reduction kappa (kappa + 1) (moveRow st.B (kappa + i) kappa)).length
      = st.B.length := by
  have habs : (s.getD i 0).natAbs = 1 := by
    rcases hval with h | h <;> rw [h] <;> rfl
  refine ⟨svp_postprocessing_single hc hi habs, ?_⟩
  rw [hsr_len, moveRow_length (by omega) (by omega)]

theorem claim_c7_witness :
    svp_postprocessing envIdW (some [0, 1]) 0 2 stC7W =
      .ok (false, { stC7W with B := [20, 10, 30] }) ∧
    (envIdW.size_reduction 0 1 (moveRow stC7W.B 1 0)).length = stC7W.B.length := by
  have h : svp_postprocessing envIdW (some [0, 1]) 0 2 stC7W =
      .ok (false, { stC7W with
        B := envIdW.size_reduction 0 (0 + 1) (moveRow stC7W.B (0 + 1) 0) }) ∧
      (envIdW.size_reduction 0 (0 + 1) (moveRow stC7W.B (0 + 1) 0)).length =
        stC7W.B.length :=
    claim_c7_single_solution (by decide) (by decide) (Or.inl (by decide)) (by decide)
      (fun _ _ _ => rfl)
  exact ⟨h.1.trans (by decide), h.2⟩

/-- The general branch of `svp_postprocessing` (any nonzero count ≠ 1):
create the scratch row, accumulate the integer combination, move it to
`kappa`, LLL the extended range, move row `kappa+block_size` back, remove
the scratch row. -/
theorem svp_postprocessing_multi {env : Env M D} {s : List ℤ}
    {kappa block_size : ℕ} {st : DriverState M}
    (hc : (s.filter (fun x => x != 0)).length ≠ 1)
    (hlen : kappa + block_size ≤ st.B.length) :
    svp_postprocessing env (some s) kappa block_size st =
      .ok (false, { st with
        B := (moveRow (env.lll kappa kappa (kappa + block_size + 1)
            (List.insertIdx kappa (((List.range block_size).map
              (fun i => s.getD i 0 • st.B.getD (kappa + i) 0)).sum) st.B)).1
          (kappa + block_size) st.B.length).dropLast,
        nswaps := (env.lll kappa kappa (kappa + block_size + 1)
            (List.insertIdx kappa (((List.range block_size).map
              (fun i => s.getD i 0 • st.B.getD (kappa + i) 0)).sum) st.B)).2 }) := by
  simp only [svp_postprocessing, if_neg hc]
  have hfold : (List.range block_size).foldl
      (fun Bb i => rowAddmul Bb st.B.length (kappa + i) (s.getD i 0))
      (st.B ++ [0]) = st.B ++ [((List.range block_size).map
        (fun i => s.getD i 0 • st.B.getD (kappa + i) 0)).sum] := by
    rw [addmul_fold_concat (List.range block_size) 0
      (fun j hj => by have := List.mem_range.1 hj; omega), zero_add]
  have hB2 : moveRow (st.B ++ [((List.range block_size).map
      (fun i => s.getD i 0 • st.B.getD (kappa + i) 0)).sum]) st.B.length kappa =
      List.insertIdx kappa (((List.range block_size).map
        (fun i => s.getD i 0 • st.B.getD (kappa + i) 0)).sum) st.B := by
    rw [moveRow, List.getElem?_concat_length,
      List.eraseIdx_append_of_length_le (le_refl st.B.length)]
    simp
  rw [hfold, hB2]

/-- **C8.** For every solution whose nonzero count is at least two,
`svp_postprocessing` runs the full scratch-row sequence — append the
scratch row carrying `Σ_i solution[i]·row(kappa+i)`, move it to `kappa`,
LLL over `[kappa, kappa+block_size+1)`, move row `kappa+block_size` back
to the scratch position, remove the scratch row — returns `clean = false`,
and leaves the row count unchanged. -/
theorem claim_c8_multi_solution {env : Env M D} {s : List ℤ}
    {kappa block_size : ℕ} {st : DriverState M}
    (hc : 2 ≤ (s.filter (fun x => x != 0)).length)
    (hlen : kappa + block_size ≤ st.B.length)
    (hlll_len : ∀ l k h B, ((env.lll l k h B : List M × ℕ).1).length = B.length) :
    ∃ st', svp_postprocessing env (some s) kappa block_size st = .ok (false, st') ∧
      st'.B = (moveRow (env.lll kappa kappa (kappa + block_size + 1)
          (List.insertIdx kappa (((List.range block_size).map
            (fun i => s.getD i 0 • st.B.getD (kappa + i) 0)).sum) st.B)).1
        (kappa + block_size) st.B.length).dropLast ∧
      st'.B.length = st.B.length := by
  refine ⟨_, svp_postprocessing_multi (by omega) hlen, rfl, ?_⟩
  have h1 : (List.insertIdx kappa (((List.range block_size).map
      (fun i => s.getD i 0 • st.B.getD (kappa + i) 0)).sum) st.B).length =
      st.B.length + 1 := List.length_insertIdx _ _ (by omega)
  have h2 := hlll_len kappa kappa (kappa + block_size + 1)
    (List.insertIdx kappa (((List.range block_size).map
      (fun i => s.getD i 0 • st.B.getD (kappa + i) 0)).sum) st.B)
  rw [List.length_dropLast, moveRow_length (by omega) (by omega), h2, h1]
  omega

theorem claim_c8_witness :
    ∃ st', svp_postprocessing envIdW (some [1, 1]) 0 2 stC8W = .ok (false, st') ∧
      st'.B = (moveRow (envIdW.lll 0 0 3
          (List.insertIdx 0 (((List.range 2).map
            (fun i => [(1 : ℤ), 1].getD i 0 • stC8W.B.getD (0 + i) 0)).sum) stC8W.B)).1
        2 stC8W.B.length).dropLast ∧
      st'.B.length = stC8W.B.length :=
  claim_c8_multi_solution (by decide) (by decide) (fun _ _ _ _ => rfl)

/-- **C10.** `svp_postprocessing` picks the cheap row-permutation branch
from the nonzero-coordinate count alone, regardless of magnitudes; inside
that branch the moved offset is the first coordinate of absolute value
exactly 1, so a ±1 lone coordinate always yields a defined row-move index,
while a lone coordinate of magnitude ≥ 2 makes the offset search fail —
the general scratch-row path is *not* taken, and the `kappa + None` row
move raises `TypeError`. -/
theorem claim_c10_offset_lookup {env : Env M D} {s : List ℤ}
    {kappa block_size i : ℕ} {st : DriverState M}
    (hc : (s.filter (fun x => x != 0)).length = 1)
    (hi : i < block_size) (his : i < s.length) (hinz : s.getD i 0 ≠ 0) :
    ((s.getD i 0).natAbs = 1 →
      (List.range block_size).find? (fun j => (s.getD j 0).natAbs == 1) = some i ∧
      svp_postprocessing env (some s) kappa block_size st =
        .ok (false, { st with
          B := env.size_reduction kappa (kappa + 1) (moveRow st.B (kappa + i) kappa) })) ∧
    (2 ≤ (s.getD i 0).natAbs →
      (List.range block_size).find? (fun j => (s.getD j 0).natAbs == 1) = none ∧
      svp_postprocessing env (some s) kappa block_size st = .raised .typeError) := by
  have hz := unique_nonzero_of_filter_one hc his hinz
  constructor
  · intro habs
    refine ⟨?_, svp_postprocessing_single hc hi habs⟩
    refine find?_range_eq_some hi (fun j hj => ?_) (by simpa using habs)
    rw [hz j (by omega)]
    rfl
  · intro habs
    have hfind : (List.range block_size).find?
        (fun j => (s.getD j 0).natAbs == 1) = none := by
      rw [List.find?_eq_none]
      intro j hjm
      by_cases hji : j = i
      · subst hji
        simp only [beq_iff_eq]
        omega
      · rw [hz j hji]
        simp
    refine ⟨hfind, ?_⟩
    simp only [svp_postprocessing, if_pos hc, hfind]

theorem claim_c10_witness :
    ((List.range 2).find? (fun j => ([(0 : ℤ), 2].getD j 0).natAbs == 1) = none ∧
      svp_postprocessing envIdW (some [0, 2]) 0 2 stC7W = .raised .typeError) ∧
    ((List.range 2).find? (fun j => ([(0 : ℤ), 1].getD j 0).natAbs == 1) = some 1 ∧
      svp_postprocessing envIdW (some [0, 1]) 0 2 stC7W =
        .ok (false, { stC7W with
          B := envIdW.size_reduction 0 (0 + 1) (moveRow stC7W.B (0 + 1) 0) })) := by
  have h2 : (2 ≤ ([(0 : ℤ), 2].getD 1 0).natAbs →
      (List.range 2).find? (fun j => ([(0 : ℤ), 2].getD j 0).natAbs == 1) = none ∧
      svp_postprocessing envIdW (some [0, 2]) 0 2 stC7W = .raised .typeError) :=
    (claim_c10_offset_lookup (by decide) (by decide) (by decide) (by decide)).2
  have h1 : (([(0 : ℤ), 1].getD 1 0).natAbs = 1 →
      (List.range 2).find? (fun j => ([(0 : ℤ), 1].getD j 0).natAbs == 1) = some 1 ∧
      svp_postprocessing envIdW (some [0, 1]) 0 2 stC7W =
        .ok (false, { stC7W with
          B := envIdW.size_reduction 0 (0 + 1) (moveRow stC7W.B (0 + 1) 0) })) :=
    (claim_c10_offset_lookup (by decide) (by decide) (by decide) (by decide)).1
  exact ⟨h2 (by decide), h1 (by decide)⟩

/-! ## Claims C5, C6: the tour sweep and its per-index logging -/

theorem svp_postprocessing_log {env : Env M D} {solution : Option (List ℤ)}
    {kappa block_size : ℕ} {st : DriverState M} {b : Bool} {st' : DriverState M}
    (hx : svp_postprocessing env solution kappa block_size st = .ok (b, st')) :
    st'.log = st.log := by
  cases solution with
  | none =>
    simp only [svp_postprocessing, Outcome.ok.injEq, Prod.mk.injEq] at hx
    rw [← hx.2]
  | some s =>
    simp only [svp_postprocessing] at hx
    split at hx
    · split at hx
      · simp only [Outcome.ok.injEq, Prod.mk.injEq] at hx
        rw [← hx.2]
      · cases hx
    · simp only [Outcome.ok.injEq, Prod.mk.injEq] at hx
      rw [← hx.2]

theorem exec_log {env : Env M D} :
    ∀ (fuel : ℕ) (k : CallK M D) (b : Bool) (st' : DriverState M),
      exec env fuel k = .ok (b, st') → k.statsOff → st'.log = k.stIn.log := by
  intro fuel
  induction fuel with
  | zero =>
    intro k b st' hx
    simp [exec] at hx
  | succ fuel ih =>
    intro k b st' hx hso
    cases k with
    | tour params min_row max_row stats st =>
      simp only [exec] at hx
      have h2 := ih (.tourFold params max_row stats
        (List.range' min_row (max_row - 1 - min_row)) true st) b st' hx hso
      simpa [CallK.stIn] using h2
    | tourFold params max_row stats ks clean st =>
      cases ks with
      | nil =>
        simp only [exec, Outcome.ok.injEq, Prod.mk.injEq] at hx
        simp only [CallK.stIn]
        rw [← hx.2]
      | cons kappa ks =>
        simp only [exec] at hx
        split at hx
        · cases hx
        · cases hx
        · rename_i c st1 heq
          have h1 := ih _ c st1 heq trivial
          simp only [CallK.stIn] at h1
          have hso' : stats = false := hso
          rw [hso'] at hx
          simp only [Bool.false_eq_true, if_false] at hx
          have h2 := ih (.tourFold params max_row false ks (clean && c) st1) b st' hx rfl
          simp only [CallK.stIn] at h2
          simp only [CallK.stIn]
          rw [h2, h1]
    | svp_reduction kappa params block_size stats st =>
      simp only [CallK.stIn]
      simp only [exec] at hx
      split at hx
      · cases hx
      · cases hx
      · rename_i clean_pre st1 heq1
        have h1 := ih _ clean_pre st1 heq1 trivial
        simp only [CallK.stIn] at h1
        split at hx
        · cases hx
        · cases hx
        · rename_i solution st2 heq2
          have hst2 : st2 = st1 := svp_call_ok_state heq2
          subst hst2
          split at hx
          · cases hx
          · cases hx
          · rename_i clean_post st3 heq3
            have h3 := svp_postprocessing_log heq3
            simp only [Outcome.ok.injEq, Prod.mk.injEq] at hx
            rw [← hx.2, h3, h1]
    | svp_preprocessing kappa params block_size st =>
      simp only [CallK.stIn]
      simp only [exec] at hx
      split at hx
      · simp only [Outcome.ok.injEq, Prod.mk.injEq] at hx
        rw [← hx.2]
      · have h2 := ih _ b st' hx trivial
        simp only [CallK.stIn] at h2
        exact h2
    | preprocLoop preproc kappa block_size i t0 clean st =>
      simp only [CallK.stIn]
      simp only [exec] at hx
      split at hx
      · cases hx
      · cases hx
      · rename_i clean_inner st1 heq
        have h1 := ih _ clean_inner st1 heq rfl
        simp only [CallK.stIn] at h1
        split at hx
        · simp only [Outcome.ok.injEq, Prod.mk.injEq] at hx
          rw [← hx.2, h1]
        · split at hx
          · simp only [Outcome.ok.injEq, Prod.mk.injEq] at hx
            rw [← hx.2, h1]
          · split at hx
            · simp only [Outcome.ok.injEq, Prod.mk.injEq] at hx
              rw [← hx.2, h1]
            · split at hx
              · split at hx
                · simp only [Outcome.ok.injEq, Prod.mk.injEq] at hx
                  rw [← hx.2, h1]
                · have h2 := ih _ b st' hx trivial
                  simp only [CallK.stIn] at h2
                  rw [h2, h1]
              · have h2 := ih _ b st' hx trivial
                simp only [CallK.stIn] at h2
                rw [h2, h1]

/-- The instrumented sweep and the driver's sweep agree: a trace exists
exactly for the normally-returning runs, with the same result. -/
theorem tourTrace_exec {env : Env M D} (params : BKZParams D) (max_row : ℕ)
    (stats : Bool) :
    ∀ (fuel : ℕ) (ks : List ℕ) (clean : Bool) (st : DriverState M),
      (∀ tr r, tourTrace env params max_row stats fuel ks clean st = .ok (tr, r) →
        exec env fuel (.tourFold params max_row stats ks clean st) = .ok r) ∧
      (∀ r, exec env fuel (.tourFold params max_row stats ks clean st) = .ok r →
        ∃ tr, tourTrace env params max_row stats fuel ks clean st = .ok (tr, r)) := by
  intro fuel
  induction fuel with
  | zero =>
    intro ks clean st
    constructor
    · intro tr r hx
      simp [tourTrace] at hx
    · intro r hx
      simp [exec] at hx
  | succ fuel ih =>
    intro ks clean st
    cases ks with
    | nil =>
      constructor
      · intro tr r hx
        simp only [tourTrace, Outcome.ok.injEq, Prod.mk.injEq] at hx
        simp only [exec, Outcome.ok.injEq]
        exact hx.2
      · intro r hx
        simp only [exec, Outcome.ok.injEq] at hx
        refine ⟨[], ?_⟩
        simp only [tourTrace]
        rw [hx]
    | cons kappa ks =>
      constructor
      · intro tr r hx
        simp only [tourTrace] at hx
        split at hx
        · cases hx
        · cases hx
        · rename_i c st1 heq
          split at hx
          · cases hx
          · cases hx
          · rename_i tr2 r2 heq2
            simp only [Outcome.ok.injEq, Prod.mk.injEq] at hx
            rw [← hx.2]
            simp only [exec, heq]
            exact (ih ks _ _).1 tr2 r2 heq2
      · intro r hx
        simp only [exec] at hx
        split at hx
        · cases hx
        · cases hx
        · rename_i c st1 heq
          obtain ⟨tr2, htr⟩ := (ih ks _ _).2 r hx
          refine ⟨⟨kappa, min params.block_size (max_row - kappa), c, clean && c⟩ :: tr2, ?_⟩
          simp only [tourTrace, heq, htr]

/-- What a tour trace records: the sweep indices in order, the truncated
block size at each, the returned clean flag as the AND-fold of the
per-index flags over the initial flag, the logged flags as the running
accumulation, and the log growth (when stats are on). -/
theorem tourTrace_spec {env : Env M D} (params : BKZParams D) (max_row : ℕ)
    (stats : Bool) :
    ∀ (fuel : ℕ) (ks : List ℕ) (clean : Bool) (st : DriverState M) (tr : List TEntry)
      (b : Bool) (st' : DriverState M),
      tourTrace env params max_row stats fuel ks clean st = .ok (tr, (b, st')) →
      tr.map TEntry.kappa = ks ∧
      (∀ e ∈ tr, e.bs = min params.block_size (max_row - e.kappa)) ∧
      b = tr.foldl (fun a e => a && e.cflag) clean ∧
      tr.map TEntry.cafter = accumFlags clean (tr.map TEntry.cflag) ∧
      (stats = true → st'.log = st.log ++ tr.map (fun e => (e.kappa, e.cafter))) := by
  intro fuel
  induction fuel with
  | zero =>
    intro ks clean st tr b st' hx
    simp [tourTrace] at hx
  | succ fuel ih =>
    intro ks clean st tr b st' hx
    cases ks with
    | nil =>
      simp only [tourTrace, Outcome.ok.injEq, Prod.mk.injEq] at hx
      obtain ⟨h1, h2, h3⟩ := hx
      subst h2
      subst h3
      rw [← h1]
      exact ⟨rfl, by simp, rfl, rfl, fun _ => by simp⟩
    | cons kappa ks =>
      simp only [tourTrace] at hx
      split at hx
      · cases hx
      · cases hx
      · rename_i c st1 heq
        split at hx
        · cases hx
        · cases hx
        · rename_i tr2 r2 heq2
          obtain ⟨r2b, r2st⟩ := r2
          simp only [Outcome.ok.injEq, Prod.mk.injEq] at hx
          obtain ⟨htr, hb2, hst2⟩ := hx
          subst hb2
          subst hst2
          obtain ⟨hk2, hbs2, hb2', hacc2, hlog2⟩ := ih ks (clean && c) _ tr2 r2b r2st heq2
          rw [← htr]
          refine ⟨by simp [hk2], ?_, ?_, ?_, ?_⟩
          · intro e he
            rcases List.mem_cons.1 he with rfl | he2
            · rfl
            · exact hbs2 e he2
          · simpa using hb2'
          · simp only [List.map_cons, accumFlags]
            exact congrArg _ hacc2
          · intro hstats
            subst hstats
            have hlog1 : st1.log = st.log := by
              have := exec_log fuel (.svp_reduction kappa params
                (min params.block_size (max_row - kappa)) true st) c st1 heq trivial
              simpa [CallK.stIn] using this
            have hlr := hlog2 rfl
            simp only [if_true] at hlr ⊢
            rw [hlr]
            simp [hlog1]

/-- **C6.** `tour(params, min_row, max_row)` performs one block reduction
per kappa in `range(min_row, max_row-1)` (i.e. `min_row .. max_row-2`
inclusive), each with block size `min(params.block_size, max_row - kappa)`
so that every block satisfies `kappa + block_size ≤ max_row` (silent tail
truncation, no block row at or beyond `max_row`), and returns the AND of
all per-index clean flags. -/
theorem claim_c6_tour_sweep {env : Env M D} {params : BKZParams D}
    {fuel min_row max_row : ℕ} {stats : Bool} {st : DriverState M} {b : Bool}
    {st' : DriverState M}
    (hx : tour env (fuel + 1) params min_row max_row stats st = .ok (b, st')) :
    ∃ tr, tourTrace env params max_row stats fuel
        (List.range' min_row (max_row - 1 - min_row)) true st = .ok (tr, (b, st')) ∧
      tr.map TEntry.kappa = List.range' min_row (max_row - 1 - min_row) ∧
      (∀ e ∈ tr, e.bs = min params.block_size (max_row - e.kappa) ∧
        e.kappa + e.bs ≤ max_row) ∧
      b = tr.foldl (fun a e => a && e.cflag) true := by
  have hx' : exec env fuel (.tourFold params max_row stats
      (List.range' min_row (max_row - 1 - min_row)) true st) = .ok (b, st') := by
    simpa only [tour, exec] using hx
  obtain ⟨tr, htr⟩ := (tourTrace_exec params max_row stats fuel _ true st).2 (b, st') hx'
  obtain ⟨hk, hbs, hb, _, _⟩ :=
    tourTrace_spec params max_row stats fuel _ true st tr b st' htr
  refine ⟨tr, htr, hk, fun e he => ⟨hbs e he, ?_⟩, hb⟩
  have hkm : e.kappa ∈ List.range' min_row (max_row - 1 - min_row) := by
    rw [← hk]
    exact List.mem_map_of_mem _ he
  rcases List.mem_range'.1 hkm with ⟨j, hj, hje⟩
  have h1 := hbs e he
  have h2 := min_le_right params.block_size (max_row - e.kappa)
  omega

theorem claim_c6_witness :
    ∃ tr, tourTrace envC3W paramsNoGhW 3 true 5 (List.range' 0 (3 - 1 - 0)) true stW =
        .ok (tr, (false, stC3W)) ∧
      tr.map TEntry.kappa = List.range' 0 (3 - 1 - 0) ∧
      (∀ e ∈ tr, e.bs = min paramsNoGhW.block_size (3 - e.kappa) ∧ e.kappa + e.bs ≤ 3) ∧
      false = tr.foldl (fun a e => a && e.cflag) true :=
  claim_c6_tour_sweep (by decide)

/-- **C5 counterexample.** A two-index sweep where index 0 is dirty and
index 1 is clean logs `(1, false)` — the accumulated flag — although
`svp_reduction` returned `true` at index 1. -/
theorem claim_c5_counterexample : ¬ LoggedFlagIsPerIndexFlag := by
  intro h
  have h2 := h envC3W paramsNoGhW 5 3 [0, 1] stW
    [⟨0, 2, false, false⟩, ⟨1, 2, true, false⟩] false stC3W (by decide)
  exact absurd h2 (by decide)

/-- **C5 (amended).** The flag logged at each index `kappa` is the
*accumulated* clean flag — the AND of the per-index `svp_reduction` flags
from the start of the sweep through `kappa` (`accumFlags`) — and the trace
is faithful to the actual sweep (same result and final state). -/
theorem claim_c5_amended_logging {env : Env M D} {params : BKZParams D}
    {fuel max_row : ℕ} {ks : List ℕ} {clean : Bool} {st : DriverState M}
    {tr : List TEntry} {b : Bool} {st' : DriverState M}
    (hx : tourTrace env params max_row true fuel ks clean st = .ok (tr, (b, st'))) :
    st'.log = st.log ++ tr.map (fun e => (e.kappa, e.cafter)) ∧
    tr.map TEntry.cafter = accumFlags clean (tr.map TEntry.cflag) ∧
    exec env fuel (.tourFold params max_row true ks clean st) = .ok (b, st') := by
  obtain ⟨_, _, _, hacc, hlog⟩ :=
    tourTrace_spec params max_row true fuel ks clean st tr b st' hx
  exact ⟨hlog rfl, hacc,
    (tourTrace_exec params max_row true fuel ks clean st).1 tr (b, st') hx⟩

theorem claim_c5_amended_witness :
    stC3W.log = stW.log ++ ([⟨0, 2, false, false⟩, ⟨1, 2, true, false⟩] :
        List TEntry).map (fun e => (e.kappa, e.cafter)) ∧
    ([⟨0, 2, false, false⟩, ⟨1, 2, true, false⟩] : List TEntry).map TEntry.cafter =
      accumFlags true (([⟨0, 2, false, false⟩, ⟨1, 2, true, false⟩] :
        List TEntry).map TEntry.cflag) ∧
    exec envC3W 5 (.tourFold paramsNoGhW 3 true [0, 1] true stW) =
      .ok (false, stC3W) :=
  claim_c5_amended_logging (by decide)

/-! ## Claim C9: `svp_preprocessing` and its inner tour loop -/

/-- The instrumented inner loop and the driver's inner loop agree. -/
theorem preprocTrace_exec {env : Env M D} (preproc : BKZParams D) (kappa block_size : ℕ) :
    ∀ (fuel i : ℕ) (t0 : D) (clean : Bool) (st : DriverState M),
      (∀ fs r, preprocTrace env preproc kappa block_size fuel i t0 clean st = .ok (fs, r) →
        exec env fuel (.preprocLoop preproc kappa block_size i t0 clean st) = .ok r) ∧
      (∀ r, exec env fuel (.preprocLoop preproc kappa block_size i t0 clean st) = .ok r →
        ∃ fs, preprocTrace env preproc kappa block_size fuel i t0 clean st = .ok (fs, r)) := by
  intro fuel
  induction fuel with
  | zero =>
    intro i t0 clean st
    constructor
    · intro fs r hx
      simp [preprocTrace] at hx
    · intro r hx
      simp [exec] at hx
  | succ fuel ih =>
    intro i t0 clean st
    constructor
    · intro fs r hx
      simp only [preprocTrace] at hx
      split at hx
      · cases hx
      · cases hx
      · rename_i ci st1 heq
        simp only [exec, heq]
        cases ci with
        | true =>
          simp only [if_true] at hx ⊢
          simp only [Outcome.ok.injEq, Prod.mk.injEq] at hx
          rw [hx.2]
        | false =>
          simp only [Bool.false_eq_true, if_false] at hx ⊢
          cases habt : env.test_abort (kappa + block_size) kappa i st1.B with
          | true =>
            simp only [habt, if_true] at hx ⊢
            simp only [Outcome.ok.injEq, Prod.mk.injEq] at hx
            rw [hx.2]
          | false =>
            simp only [habt, Bool.false_eq_true, if_false] at hx ⊢
            cases hml : preproc.flags.max_loops && decide (preproc.max_loops ≤ i) with
            | true =>
              simp only [hml, if_true] at hx ⊢
              simp only [Outcome.ok.injEq, Prod.mk.injEq] at hx
              rw [hx.2]
            | false =>
              simp only [hml, Bool.false_eq_true, if_false] at hx ⊢
              cases hmt : preproc.flags.max_time with
              | true =>
                simp only [hmt, if_true] at hx ⊢
                by_cases htime : preproc.max_time ≤ env.clock st1.tick - t0
                · simp only [if_pos htime] at hx ⊢
                  simp only [Outcome.ok.injEq, Prod.mk.injEq] at hx
                  rw [hx.2]
                · simp only [if_neg htime] at hx ⊢
                  split at hx
                  · cases hx
                  · cases hx
                  · rename_i fs2 r2 heq2
                    simp only [Outcome.ok.injEq, Prod.mk.injEq] at hx
                    rw [← hx.2]
                    exact (ih (i + 1) t0 false _).1 fs2 r2 heq2
              | false =>
                simp only [hmt, Bool.false_eq_true, if_false] at hx ⊢
                split at hx
                · cases hx
                · cases hx
                · rename_i fs2 r2 heq2
                  simp only [Outcome.ok.injEq, Prod.mk.injEq] at hx
                  rw [← hx.2]
                  exact (ih (i + 1) t0 false _).1 fs2 r2 heq2
    · intro r hx
      simp only [exec] at hx
      split at hx
      · cases hx
      · cases hx
      · rename_i ci st1 heq
        simp only [preprocTrace, heq]
        cases ci with
        | true =>
          simp only [if_true] at hx ⊢
          have hr : (clean, st1) = r := by simpa using hx
          exact ⟨[true], by rw [hr]⟩
        | false =>
          simp only [Bool.false_eq_true, if_false] at hx ⊢
          cases habt : env.test_abort (kappa + block_size) kappa i st1.B with
          | true =>
            simp only [habt, if_true] at hx ⊢
            have hr : (false, st1) = r := by simpa using hx
            exact ⟨[false], by rw [hr]⟩
          | false =>
            simp only [habt, Bool.false_eq_true, if_false] at hx ⊢
            cases hml : preproc.flags.max_loops && decide (preproc.max_loops ≤ i) with
            | true =>
              simp only [hml, if_true] at hx ⊢
              have hr : (false, st1) = r := by simpa using hx
              exact ⟨[false], by rw [hr]⟩
            | false =>
              simp only [hml, Bool.false_eq_true, if_false] at hx ⊢
              cases hmt : preproc.flags.max_time with
              | true =>
                simp only [hmt, if_true] at hx ⊢
                by_cases htime : preproc.max_time ≤ env.clock st1.tick - t0
                · simp only [if_pos htime] at hx ⊢
                  have hr : (false, { st1 with tick := st1.tick + 1 }) = r := by simpa using hx
                  exact ⟨[false], by rw [hr]⟩
                · simp only [if_neg htime] at hx ⊢
                  obtain ⟨fs2, htr2⟩ := (ih (i + 1) t0 false _).2 r hx
                  exact ⟨false :: fs2, by rw [htr2]⟩
              | false =>
                simp only [hmt, Bool.false_eq_true, if_false] at hx ⊢
                obtain ⟨fs2, htr2⟩ := (ih (i + 1) t0 false _).2 r hx
                exact ⟨false :: fs2, by rw [htr2]⟩

/-- The flag an inner-loop run returns is the initial flag AND-ed with the
clean flags of all executed inner tours. -/
theorem preprocTrace_spec {env : Env M D} (preproc : BKZParams D) (kappa block_size : ℕ) :
    ∀ (fuel i : ℕ) (t0 : D) (clean : Bool) (st : DriverState M) (fs : List Bool)
      (b : Bool) (st' : DriverState M),
      preprocTrace env preproc kappa block_size fuel i t0 clean st = .ok (fs, (b, st')) →
      b = (clean && fs.all id) := by
  intro fuel
  induction fuel with
  | zero =>
    intro i t0 clean st fs b st' hx
    simp [preprocTrace] at hx
  | succ fuel ih =>
    intro i t0 clean st fs b st' hx
    simp only [preprocTrace] at hx
    split at hx
    · cases hx
    · cases hx
    · rename_i ci st1 heq
      cases ci with
      | true =>
        simp only [if_true] at hx
        simp only [Outcome.ok.injEq, Prod.mk.injEq] at hx
        rw [← hx.1, ← hx.2.1]
        simp [List.all]
      | false =>
        simp only [Bool.false_eq_true, if_false] at hx
        split at hx
        · simp only [Outcome.ok.injEq, Prod.mk.injEq] at hx
          rw [← hx.1, ← hx.2.1]
          simp
        · split at hx
          · simp only [Outcome.ok.injEq, Prod.mk.injEq] at hx
            rw [← hx.1, ← hx.2.1]
            simp
          · split at hx
            · split at hx
              · simp only [Outcome.ok.injEq, Prod.mk.injEq] at hx
                rw [← hx.1, ← hx.2.1]
                simp
              · split at hx
                · cases hx
                · cases hx
                · rename_i fs2 r2 heq2
                  obtain ⟨r2b, r2st⟩ := r2
                  have hb2 := ih (i + 1) t0 false _ fs2 r2b r2st heq2
                  simp only [Outcome.ok.injEq, Prod.mk.injEq] at hx
                  rw [← hx.1, ← hx.2.1, ← hx.2.2] at *
                  rw [hb2]
                  simp
            · split at hx
              · cases hx
              · cases hx
              · rename_i fs2 r2 heq2
                obtain ⟨r2b, r2st⟩ := r2
                have hb2 := ih (i + 1) t0 false _ fs2 r2b r2st heq2
                simp only [Outcome.ok.injEq, Prod.mk.injEq] at hx
                rw [← hx.1, ← hx.2.1, ← hx.2.2] at *
                rw [hb2]
                simp

/-- **C9.** `svp_preprocessing` returns `true` iff the initial
`lll_obj(0, kappa, kappa+block_size)` pass made no swap and no executed
inner preprocessing tour was dirty: with no nested parameters the returned
flag is exactly `nswaps == 0`; with nested parameters the returned flag
equals `nswaps == 0` AND-ed over the clean flags of all executed inner
tours.  The inner loop's step exits exactly when the flat disjunction
`preprocExit` holds — the inner tour was clean, or the inner auto-abort
fires (tested unconditionally), or the inner loop/time budgets fire — and
on a dirty non-exiting tour it continues with the flag overwritten to the
inner tour's (false) flag. -/
theorem claim_c9_preprocessing {env : Env M D} {params : BKZParams D}
    {kappa block_size fuel : ℕ} {st : DriverState M} :
    (params.preprocessing = none →
      exec env (fuel + 1) (.svp_preprocessing kappa params block_size st) =
        .ok ((env.lll 0 kappa (kappa + block_size) st.B).2 == 0,
          { st with
            B := (env.lll 0 kappa (kappa + block_size) st.B).1,
            nswaps := (env.lll 0 kappa (kappa + block_size) st.B).2 })) ∧
    (∀ (preproc : BKZParams D) (b : Bool) (st' : DriverState M),
      params.preprocessing = some preproc →
      exec env (fuel + 1) (.svp_preprocessing kappa params block_size st) = .ok (b, st') →
      ∃ fs, preprocTrace env preproc kappa block_size fuel 0 (env.clock st.tick)
          ((env.lll 0 kappa (kappa + block_size) st.B).2 == 0)
          { st with
            B := (env.lll 0 kappa (kappa + block_size) st.B).1,
            nswaps := (env.lll 0 kappa (kappa + block_size) st.B).2,
            tick := st.tick + 1 } = .ok (fs, (b, st')) ∧
        b = (((env.lll 0 kappa (kappa + block_size) st.B).2 == 0) && fs.all id)) ∧
    (∀ (preproc : BKZParams D) (i : ℕ) (t0 : D) (clean : Bool) (st0 : DriverState M)
        (clean_inner : Bool) (st1 : DriverState M),
      exec env fuel (.tour preproc kappa (kappa + block_size) false st0) =
        .ok (clean_inner, st1) →
      (preprocExit env preproc kappa block_size i t0 clean_inner st1 = true →
        ∃ b2 st2,
          exec env (fuel + 1) (.preprocLoop preproc kappa block_size i t0 clean st0) =
            .ok (b2, st2) ∧ st2.B = st1.B) ∧
      (preprocExit env preproc kappa block_size i t0 clean_inner st1 = false →
        ∃ st2,
          exec env (fuel + 1) (.preprocLoop preproc kappa block_size i t0 clean st0) =
            exec env fuel (.preprocLoop preproc kappa block_size (i + 1) t0 clean_inner st2) ∧
          st2.B = st1.B)) := by
  refine ⟨fun hpre => ?_, fun preproc b st' hpre hx => ?_,
    fun preproc i t0 clean st0 clean_inner st1 htour => ?_⟩
  · simp only [exec, hpre]
  · simp only [exec, hpre] at hx
    obtain ⟨fs, htr⟩ := (preprocTrace_exec preproc kappa block_size fuel 0
      (env.clock st.tick) _ _).2 (b, st') hx
    exact ⟨fs, htr, preprocTrace_spec preproc kappa block_size fuel 0
      (env.clock st.tick) _ _ fs b st' htr⟩
  · simp only [exec, htour, preprocExit]
    cases clean_inner with
    | true =>
      simp only [Bool.true_or, if_true]
      exact ⟨fun _ => ⟨clean, st1, rfl, rfl⟩, fun hF => by simp at hF⟩
    | false =>
      simp only [Bool.false_or, Bool.false_eq_true, if_false]
      cases habt : env.test_abort (kappa + block_size) kappa i st1.B with
      | true =>
        simp only [habt, Bool.true_or, if_true]
        exact ⟨fun _ => ⟨false, st1, rfl, rfl⟩, fun hF => by simp at hF⟩
      | false =>
        simp only [habt, Bool.false_or, Bool.false_eq_true, if_false]
        cases hml : preproc.flags.max_loops && decide (preproc.max_loops ≤ i) with
        | true =>
          simp only [hml, Bool.true_or, if_true]
          exact ⟨fun _ => ⟨false, st1, rfl, rfl⟩, fun hF => by simp at hF⟩
        | false =>
          simp only [hml, Bool.false_or, Bool.false_eq_true, if_false]
          cases hmt : preproc.flags.max_time with
          | true =>
            simp only [hmt, Bool.true_and, if_true]
            by_cases htime : preproc.max_time ≤ env.clock st1.tick - t0
            · simp only [if_pos htime, decide_eq_true htime]
              exact ⟨fun _ => ⟨false, _, rfl, rfl⟩, fun hF => by simp at hF⟩
            · simp only [if_neg htime, decide_eq_false htime]
              exact ⟨fun hT => by simp at hT, fun _ => ⟨_, rfl, rfl⟩⟩
          | false =>
            simp only [hmt, Bool.false_and, Bool.or_false, if_false]
            exact ⟨fun hT => by simp at hT, fun _ => ⟨st1, rfl, rfl⟩⟩

theorem claim_c9_witness :
    exec envIdW (5 + 1) (.svp_preprocessing 0 paramsNoGhW 2 stC7W) =
      .ok ((envIdW.lll 0 0 (0 + 2) stC7W.B).2 == 0,
        { stC7W with
          B := (envIdW.lll 0 0 (0 + 2) stC7W.B).1,
          nswaps := (envIdW.lll 0 0 (0 + 2) stC7W.B).2 }) ∧
    (∃ fs, preprocTrace envIdW paramsNoGhW 0 2 5 0 (envIdW.clock stC7W.tick)
        ((envIdW.lll 0 0 (0 + 2) stC7W.B).2 == 0)
        { stC7W with
          B := (envIdW.lll 0 0 (0 + 2) stC7W.B).1,
          nswaps := (envIdW.lll 0 0 (0 + 2) stC7W.B).2,
          tick := stC7W.tick + 1 } = .ok (fs, (true, stC9Fin)) ∧
      true = (((envIdW.lll 0 0 (0 + 2) stC7W.B).2 == 0) && fs.all id)) ∧
    (∃ b2 st2, exec envIdW (5 + 1) (.preprocLoop paramsNoGhW 0 2 0 0 true stC7W) =
      .ok (b2, st2) ∧ st2.B = stC7W.B) := by
  have hA : (paramsNoGhW.preprocessing = none →
      exec envIdW (5 + 1) (.svp_preprocessing 0 paramsNoGhW 2 stC7W) =
        .ok ((envIdW.lll 0 0 (0 + 2) stC7W.B).2 == 0,
          { stC7W with
            B := (envIdW.lll 0 0 (0 + 2) stC7W.B).1,
            nswaps := (envIdW.lll 0 0 (0 + 2) stC7W.B).2 })) ∧
      (∀ (preproc : BKZParams ℤ) (b : Bool) (st' : DriverState ℤ),
        paramsNoGhW.preprocessing = some preproc →
        exec envIdW (5 + 1) (.svp_preprocessing 0 paramsNoGhW 2 stC7W) = .ok (b, st') →
        ∃ fs, preprocTrace envIdW preproc 0 2 5 0 (envIdW.clock stC7W.tick)
            ((envIdW.lll 0 0 (0 + 2) stC7W.B).2 == 0)
            { stC7W with
              B := (envIdW.lll 0 0 (0 + 2) stC7W.B).1,
              nswaps := (envIdW.lll 0 0 (0 + 2) stC7W.B).2,
              tick := stC7W.tick + 1 } = .ok (fs, (b, st')) ∧
          b = (((envIdW.lll 0 0 (0 + 2) stC7W.B).2 == 0) && fs.all id)) ∧
      (∀ (preproc : BKZParams ℤ) (i : ℕ) (t0 : ℤ) (clean : Bool) (st0 : DriverState ℤ)
          (clean_inner : Bool) (st1 : DriverState ℤ),
        exec envIdW 5 (.tour preproc 0 (0 + 2) false st0) = .ok (clean_inner, st1) →
        (preprocExit envIdW preproc 0 2 i t0 clean_inner st1 = true →
          ∃ b2 st2, exec envIdW (5 + 1) (.preprocLoop preproc 0 2 i t0 clean st0) =
            .ok (b2, st2) ∧ st2.B = st1.B) ∧
        (preprocExit envIdW preproc 0 2 i t0 clean_inner st1 = false →
          ∃ st2, exec envIdW (5 + 1) (.preprocLoop preproc 0 2 i t0 clean st0) =
              exec envIdW 5 (.preprocLoop preproc 0 2 (i + 1) t0 clean_inner st2) ∧
            st2.B = st1.B)) := claim_c9_preprocessing
  have hB : (paramsNestW.preprocessing = none →
      exec envIdW (5 + 1) (.svp_preprocessing 0 paramsNestW 2 stC7W) =
        .ok ((envIdW.lll 0 0 (0 + 2) stC7W.B).2 == 0,
          { stC7W with
            B := (envIdW.lll 0 0 (0 + 2) stC7W.B).1,
            nswaps := (envIdW.lll 0 0 (0 + 2) stC7W.B).2 })) ∧
      (∀ (preproc : BKZParams ℤ) (b : Bool) (st' : DriverState ℤ),
        paramsNestW.preprocessing = some preproc →
        exec envIdW (5 + 1) (.svp_preprocessing 0 paramsNestW 2 stC7W) = .ok (b, st') →
        ∃ fs, preprocTrace envIdW preproc 0 2 5 0 (envIdW.clock stC7W.tick)
            ((envIdW.lll 0 0 (0 + 2) stC7W.B).2 == 0)
            { stC7W with
              B := (envIdW.lll 0 0 (0 + 2) stC7W.B).1,
              nswaps := (envIdW.lll 0 0 (0 + 2) stC7W.B).2,
              tick := stC7W.tick + 1 } = .ok (fs, (b, st')) ∧
          b = (((envIdW.lll 0 0 (0 + 2) stC7W.B).2 == 0) && fs.all id)) ∧
      (∀ (preproc : BKZParams ℤ) (i : ℕ) (t0 : ℤ) (clean : Bool) (st0 : DriverState ℤ)
          (clean_inner : Bool) (st1 : DriverState ℤ),
        exec envIdW 5 (.tour preproc 0 (0 + 2) false st0) = .ok (clean_inner, st1) →
        (preprocExit envIdW preproc 0 2 i t0 clean_inner st1 = true →
          ∃ b2 st2, exec envIdW (5 + 1) (.preprocLoop preproc 0 2 i t0 clean st0) =
            .ok (b2, st2) ∧ st2.B = st1.B) ∧
        (preprocExit envIdW preproc 0 2 i t0 clean_inner st1 = false →
          ∃ st2, exec envIdW (5 + 1) (.preprocLoop preproc 0 2 i t0 clean st0) =
              exec envIdW 5 (.preprocLoop preproc 0 2 (i + 1) t0 clean_inner st2) ∧
            st2.B = st1.B)) := claim_c9_preprocessing
  refine ⟨hA.1 rfl, ?_, ?_⟩
  · exact hB.2.1 paramsNoGhW true stC9Fin rfl (by decide)
  · exact (hA.2.2 paramsNoGhW 0 0 true stC7W true stC7W (by decide)).1 (by decide)

end Fpylll
